import Mathlib

/-!
Verification of the flatten/inflate/cache core of scripts/translate-json.js.

The script synchronises a source-language JSON dictionary with a target-language
one: it flattens the nested JSON tree to a flat mapping keyed by dotted and
bracketed path strings, consults a persisted cache to decide which leaves need
retranslation, calls a translation gateway for those, and inflates the merged
flat mapping back into a tree.

This file gives a shallow embedding of that core:

* `JS` models the JSON values the script manipulates (objects are modelled as
  association lists in insertion order, which is how the script iterates them
  via Object.entries; JavaScript reordering of integer-like object keys is not
  modelled, as no claim depends on enumeration order of such keys).
* `flattenJS` models the first script variant's `flatten` (lines 34-47),
  `flattenTwo` the second variant's `flatten` (lines 170-192).
* `splitPath` models the regex scanner of the first variant (lines 50-59): the
  JavaScript code repeatedly calls `re.exec` with the global regex
  `(?:\.?([^[.]+))|(?:\[(\d+)\])`.  The exec loop scans left to right; at each
  position it first tries alternative A (an optional dot followed by one or
  more characters other than a dot or an opening bracket, pushed as a string
  key) and then alternative B (a bracketed nonempty digit run, pushed as a
  number); when neither alternative matches, the scan advances one character.
  `spGo` implements exactly that scan as a single-pass state machine: the
  character classes of the two alternatives are disjoint from the characters
  that make them fail, so the regex backtracking resolves to the local case
  analysis spelled out in `spGo` (each branch is annotated with the regex
  behaviour it mirrors).
* `setPathSeg`/`inflateF` model `setPath`/`inflate` (lines 60-73), including
  JavaScript's coercion of numeric segments to string keys on plain objects
  and of numeric string keys to indices on arrays.  Property assignment on a
  primitive throws a TypeError in strict mode (ESM code), modelled as
  `Except.error`.  Named (non-index) properties on arrays are dropped by
  JSON.stringify before anything observes them, so assigning one is modelled
  as a no-op, and holes created by writing past the end of an array are
  modelled as nulls, which is what JSON.stringify turns them into.
* `runLoop` models the per-leaf loop of the main driver (lines 127-137),
  `cleanCfg` the `clean` helper (line 111), `translateOneModel` the response
  handling of `translateOne` (lines 105-109), and `withRetriesRun` the retry
  wrapper `withRetries` (lines 76-89).
-/

/-- A decoded path segment: `splitPath` produces string keys and numeric
indices. -/
inductive Seg where
  | key (s : String) : Seg
  | idx (n : Nat) : Seg
deriving DecidableEq, Repr

/-- The JSON-like values manipulated by the script.  Objects keep their fields
as an association list in insertion order. -/
inductive JS where
  | str (s : String) : JS
  | num (n : Int) : JS
  | boolv (b : Bool) : JS
  | nullv : JS
  | arr (elems : List JS) : JS
  | obj (fields : List (String × JS)) : JS
deriving Repr

mutual

def beqJS : JS → JS → Bool
  | .str a, .str b => a == b
  | .num a, .num b => a == b
  | .boolv a, .boolv b => a == b
  | .nullv, .nullv => true
  | .arr l, .arr r => beqArr l r
  | .obj m, .obj n => beqObj m n
  | _, _ => false
termination_by structural x => x

def beqArr : List JS → List JS → Bool
  | [], [] => true
  | a :: as2, b :: bs => beqJS a b && beqArr as2 bs
  | _, _ => false
termination_by structural x => x

def beqObj : List (String × JS) → List (String × JS) → Bool
  | [], [] => true
  | (k, a) :: as2, (k2, b) :: bs => k == k2 && beqJS a b && beqObj as2 bs
  | _, _ => false
termination_by structural x => x

end

mutual

theorem beqJS_iff : ∀ a b, beqJS a b = true ↔ a = b
  | .str a, b => by cases b <;> simp [beqJS]
  | .num a, b => by cases b <;> simp [beqJS]
  | .boolv a, b => by cases b <;> simp [beqJS]
  | .nullv, b => by cases b <;> simp [beqJS]
  | .arr l, b => by
      cases b <;> simp [beqJS, beqArr_iff l]
  | .obj m, b => by
      cases b <;> simp [beqJS, beqObj_iff m]
termination_by structural x => x

theorem beqArr_iff : ∀ a b, beqArr a b = true ↔ a = b
  | [], [] => by simp [beqArr]
  | [], _ :: _ => by simp [beqArr]
  | _ :: _, [] => by simp [beqArr]
  | a :: as2, b :: bs => by
      simp [beqArr, beqJS_iff a b, beqArr_iff as2 bs]
termination_by structural x => x

theorem beqObj_iff : ∀ a b, beqObj a b = true ↔ a = b
  | [], [] => by simp [beqObj]
  | [], _ :: _ => by simp [beqObj]
  | _ :: _, [] => by simp [beqObj]
  | (k, a) :: as2, (k2, b) :: bs => by
      simp [beqObj, beqJS_iff a b, beqObj_iff as2 bs, and_assoc]
termination_by structural x => x

end

instance : DecidableEq JS := fun a b => decidable_of_iff _ (beqJS_iff a b)

/-! ## Association lists

JavaScript objects are used by the script as string-keyed dictionaries.
`alookup` models property lookup, `upsert` models `o[k] = v`: an existing key
keeps its position and gets the new value, a new key is appended. -/

def alookup {α : Type} : List (String × α) → String → Option α
  | [], _ => none
  | (k1, v) :: rest, k => if k1 = k then some v else alookup rest k

def upsert {α : Type} : List (String × α) → String → α → List (String × α)
  | [], k, v => [(k, v)]
  | (k1, v1) :: rest, k, v =>
      if k1 = k then (k, v) :: rest else (k1, v1) :: upsert rest k v

def keysOf {α : Type} (m : List (String × α)) : List String := m.map Prod.fst

theorem alookup_upsert_self {α : Type} (m : List (String × α)) (k : String) (v : α) :
    alookup (upsert m k v) k = some v := by
  induction m with
  | nil => simp [upsert, alookup]
  | cons kv rest ih =>
      obtain ⟨k1, v1⟩ := kv
      by_cases h : k1 = k <;> simp [upsert, alookup, h, ih]

theorem alookup_upsert_ne {α : Type} (m : List (String × α)) (k k2 : String) (v : α)
    (h : k ≠ k2) : alookup (upsert m k v) k2 = alookup m k2 := by
  induction m with
  | nil => simp [upsert, alookup, h]
  | cons kv rest ih =>
      obtain ⟨k1, v1⟩ := kv
      by_cases h1 : k1 = k
      · subst h1
        simp [upsert, alookup, h]
      · simp [upsert, alookup, h1, ih]

theorem upsert_of_not_mem {α : Type} (m : List (String × α)) (k : String) (v : α)
    (h : k ∉ keysOf m) : upsert m k v = m ++ [(k, v)] := by
  induction m with
  | nil => simp [upsert]
  | cons kv rest ih =>
      obtain ⟨k1, v1⟩ := kv
      simp [keysOf] at h
      simp [upsert, Ne.symm h.1, ih (by simpa [keysOf] using h.2)]

theorem keysOf_upsert_mem {α : Type} (m : List (String × α)) (k : String) (v : α)
    (h : k ∈ keysOf m) : keysOf (upsert m k v) = keysOf m := by
  induction m with
  | nil => simp [keysOf] at h
  | cons kv rest ih =>
      obtain ⟨k1, v1⟩ := kv
      by_cases h1 : k1 = k
      · simp [upsert, h1, keysOf]
      · have h2 : k ∈ keysOf rest := by
          rcases (List.mem_cons).mp h with h | h
          · exact absurd h.symm (by simpa using h1)
          · exact h
        have ih2 := ih h2
        simp only [keysOf] at ih2 ⊢
        simp [upsert, h1, ih2]

theorem alookup_append_left {α : Type} (m1 m2 : List (String × α)) (k : String)
    (h : k ∈ keysOf m1) : alookup (m1 ++ m2) k = alookup m1 k := by
  induction m1 with
  | nil => simp [keysOf] at h
  | cons kv rest ih =>
      obtain ⟨k1, v1⟩ := kv
      by_cases h1 : k1 = k
      · simp [alookup, h1]
      · simp [keysOf, h1] at h
        rcases h with h | h
        · exact absurd h.symm h1
        · simp [alookup, h1, ih (by simpa [keysOf] using h)]

theorem alookup_append_right {α : Type} (m1 m2 : List (String × α)) (k : String)
    (h : k ∉ keysOf m1) : alookup (m1 ++ m2) k = alookup m2 k := by
  induction m1 with
  | nil => simp
  | cons kv rest ih =>
      obtain ⟨k1, v1⟩ := kv
      simp [keysOf] at h
      simp [alookup, Ne.symm h.1, ih (by simpa [keysOf] using h.2)]

theorem alookup_eq_none {α : Type} (m : List (String × α)) (k : String)
    (h : k ∉ keysOf m) : alookup m k = none := by
  induction m with
  | nil => simp [alookup]
  | cons kv rest ih =>
      obtain ⟨k1, v1⟩ := kv
      simp [keysOf] at h
      simp [alookup, Ne.symm h.1, ih (by simpa [keysOf] using h.2)]

theorem alookup_isSome_of_mem {α : Type} (m : List (String × α)) (k : String) (v : α)
    (h : (k, v) ∈ m) : ∃ w, alookup m k = some w := by
  induction m with
  | nil => simp at h
  | cons kv rest ih =>
      obtain ⟨k1, v1⟩ := kv
      by_cases h1 : k1 = k
      · exact ⟨v1, by simp [alookup, h1]⟩
      · simp at h
        rcases h with h | h
        · exact absurd h.1.symm h1
        · simpa [alookup, h1] using ih h

/-! ## Decimal digits

JavaScript renders an array index `i` into a path with the template literal
`[${i}]`, i.e. the canonical decimal representation, and `splitPath` converts a
bracketed digit run back with `Number(...)`.  `natChars` and `charsToNat` model
those two conversions on character lists. -/

def digitChar (d : Nat) : Char :=
  match d with
  | 0 => '0' | 1 => '1' | 2 => '2' | 3 => '3' | 4 => '4'
  | 5 => '5' | 6 => '6' | 7 => '7' | 8 => '8' | _ => '9'

def charVal (c : Char) : Nat := c.toNat - 48

/-- Base-10 digit values of `n`, least significant first, computed with a fuel
argument so that it reduces inside the kernel; `natDigits_eq_digits` links it
to `Nat.digits`. -/
def natDigitsAux : Nat → Nat → List Nat
  | 0, _ => []
  | fuel + 1, n => if n = 0 then [] else (n % 10) :: natDigitsAux fuel (n / 10)

def natDigits (n : Nat) : List Nat := natDigitsAux (n + 1) n

theorem natDigitsAux_eq_digits (fuel : Nat) : ∀ n, n ≤ fuel →
    natDigitsAux fuel n = Nat.digits 10 n := by
  induction fuel with
  | zero =>
      intro n hn
      interval_cases n
      simp [natDigitsAux]
  | succ fuel ih =>
      intro n hn
      by_cases h : n = 0
      · subst h; simp [natDigitsAux]
      · have hdiv : n / 10 ≤ fuel := by
          have : n / 10 < n := Nat.div_lt_self (Nat.pos_of_ne_zero h) (by norm_num)
          omega
        rw [natDigitsAux, if_neg h, ih (n / 10) hdiv,
          Nat.digits_def' (by norm_num : 1 < 10) (Nat.pos_of_ne_zero h)]

theorem natDigits_eq_digits (n : Nat) : natDigits n = Nat.digits 10 n :=
  natDigitsAux_eq_digits (n + 1) n (by omega)

/-- Decimal characters of a natural number, most significant first; this is the
string JavaScript produces for a nonnegative integer below 2^53. -/
def natChars (n : Nat) : List Char :=
  if n = 0 then ['0'] else ((natDigits n).reverse.map digitChar)

def natToString (n : Nat) : String := String.mk (natChars n)

/-- `Number` applied to a nonempty digit run, as used on the bracket capture
group of the path regex. -/
def charsToNat (cs : List Char) : Nat :=
  cs.foldl (fun a c => a * 10 + charVal c) 0

theorem charVal_digitChar (d : Nat) (h : d < 10) : charVal (digitChar d) = d := by
  interval_cases d <;> rfl

theorem isDigit_digitChar (d : Nat) (h : d < 10) : (digitChar d).isDigit = true := by
  interval_cases d <;> rfl

theorem foldl_base_pow (ds : List Nat) : ∀ a : Nat,
    List.foldl (fun x d => x * 10 + d) a ds
      = a * 10 ^ ds.length + Nat.ofDigits 10 ds.reverse := by
  induction ds with
  | nil => intro a; simp [Nat.ofDigits]
  | cons d t ih =>
      intro a
      have h2 : Nat.ofDigits 10 (t.reverse ++ [d])
          = Nat.ofDigits 10 t.reverse + 10 ^ t.length * d := by
        rw [Nat.ofDigits_append]
        simp [Nat.ofDigits]
      simp only [List.foldl_cons, ih (a * 10 + d), List.reverse_cons, h2,
        List.length_cons]
      ring

theorem foldl_map_digitChar (ds : List Nat) (hd : ∀ d ∈ ds, d < 10) : ∀ a : Nat,
    List.foldl (fun x c => x * 10 + charVal c) a (ds.map digitChar)
      = List.foldl (fun x d => x * 10 + d) a ds := by
  induction ds with
  | nil => intro a; simp
  | cons d t ih =>
      intro a
      simp only [List.map_cons, List.foldl_cons,
        charVal_digitChar d (hd d (by simp))]
      exact ih (fun d2 h2 => hd d2 (by simp [h2])) _

theorem charsToNat_natChars (n : Nat) : charsToNat (natChars n) = n := by
  by_cases h : n = 0
  · subst h; rfl
  · have hd : ∀ d ∈ (Nat.digits 10 n).reverse, d < 10 := by
      intro d hmem
      exact Nat.digits_lt_base (by norm_num) (List.mem_reverse.mp hmem)
    unfold charsToNat natChars
    rw [if_neg h, natDigits_eq_digits, foldl_map_digitChar _ hd, foldl_base_pow]
    simp [Nat.ofDigits_digits]

theorem natChars_all_digit (n : Nat) : ∀ c ∈ natChars n, c.isDigit = true := by
  by_cases h : n = 0
  · subst h; intro c hc; simp [natChars] at hc; subst hc; rfl
  · intro c hc
    simp only [natChars, natDigits_eq_digits, if_neg h, List.mem_map,
      List.mem_reverse] at hc
    obtain ⟨d, hd, rfl⟩ := hc
    exact isDigit_digitChar d (Nat.digits_lt_base (by norm_num) hd)

theorem natChars_ne_nil (n : Nat) : natChars n ≠ [] := by
  by_cases h : n = 0
  · subst h; simp [natChars]
  · simp only [natChars, natDigits_eq_digits, if_neg h]
    intro hc
    rw [List.map_eq_nil_iff, List.reverse_eq_nil_iff] at hc
    exact h (Nat.digits_eq_nil_iff_eq_zero.mp hc)

/-! ## Path decoding

`splitPath` (first variant, lines 50-59) repeatedly applies the global regex
`(?:\.?([^[.]+))|(?:\[(\d+)\])` and pushes group 1 as a string key and group 2
through `Number` as an index.  `spGo` is that exec loop as a left-to-right
state machine; see the header comment for the correspondence argument. -/

def isKeyChar (c : Char) : Bool := !(c == '[') && !(c == '.')

inductive SpState where
  | top : SpState
  | keyrun (buf : List Char) : SpState
  | bracket (ds : List Char) : SpState
deriving Repr

def spFlush : SpState → List Seg
  | .top => []
  | .keyrun buf => [Seg.key (String.mk buf.reverse)]
  | .bracket ds => if ds.isEmpty then [] else [Seg.key (String.mk ds.reverse)]

def spGo : List Char → SpState → List Seg
  | [], st => spFlush st
  | c :: rest, st =>
    match st with
    | .top =>
        -- at a fresh scan position: '[' can only start alternative B,
        -- '.' can only be the optional dot of alternative A (or be skipped),
        -- any other character starts the [^[.]+ key run of alternative A
        if c = '[' then spGo rest (.bracket [])
        else if c = '.' then spGo rest .top
        else spGo rest (.keyrun [c])
    | .keyrun buf =>
        -- inside a [^[.]+ run: '[' and '.' terminate the match (the key is
        -- pushed), anything else extends the greedy run
        if c = '[' then Seg.key (String.mk buf.reverse) :: spGo rest (.bracket [])
        else if c = '.' then Seg.key (String.mk buf.reverse) :: spGo rest .top
        else spGo rest (.keyrun (c :: buf))
    | .bracket ds =>
        -- inside a tentative \[(\d+)\] match: when the bracket fails, the
        -- regex engine advances to the position right after '[' and rescans
        -- the digits collected so far as ordinary key characters
        if c.isDigit then spGo rest (.bracket (c :: ds))
        else if c = ']' then
          if ds.isEmpty then spGo rest (.keyrun [c])
          else Seg.idx (charsToNat ds.reverse) :: spGo rest .top
        else if c = '[' then
          if ds.isEmpty then spGo rest (.bracket [])
          else Seg.key (String.mk ds.reverse) :: spGo rest (.bracket [])
        else if c = '.' then
          if ds.isEmpty then spGo rest .top
          else Seg.key (String.mk ds.reverse) :: spGo rest .top
        else spGo rest (.keyrun (c :: ds))
termination_by structural cs => cs

/-- Parse a path string such as `a.b[0].c` into segments, as `splitPath`
does. -/
def splitPath (s : String) : List Seg := spGo s.data .top

/-- The path construction used by `flatten`: keys are joined with a dot
(omitted for an empty base), indices are appended as a bracketed decimal. -/
def stepPath (base : String) : Seg → String
  | .key k => if base = "" then k else base ++ "." ++ k
  | .idx i => if base = "" then "[" ++ natToString i ++ "]"
              else base ++ "[" ++ natToString i ++ "]"

/-- Encode a segment sequence into the path string `flatten` would build. -/
def encodePath (p : List Seg) : String := p.foldl stepPath ""

/-- A key is valid when it is nonempty and free of the two characters the
encoder uses as structure. -/
def validKey (k : String) : Bool := decide (k ≠ "") && k.data.all isKeyChar

def validSeg : Seg → Bool
  | .key k => validKey k
  | .idx _ => true

def validSegs (p : List Seg) : Bool := p.all validSeg

theorem isKeyChar_spec (c : Char) (h : isKeyChar c = true) : c ≠ '[' ∧ c ≠ '.' := by
  simpa [isKeyChar] using h

example : splitPath "a.b[0].c" = [.key "a", .key "b", .idx 0, .key "c"] := by decide

example : splitPath "list[10].x" = [.key "list", .idx 10, .key "x"] := by decide


/-- Character-list rendering of a segment in non-initial position: keys carry
their joining dot, indices their brackets. -/
def segTailChars : Seg → List Char
  | .key k => '.' :: k.data
  | .idx i => '[' :: (natChars i ++ [']'])

def encodeTail : List Seg → List Char
  | [] => []
  | s :: rest => segTailChars s ++ encodeTail rest

theorem spGo_keyRun (ks : List Char) (hk : ∀ c ∈ ks, isKeyChar c = true) :
    ∀ buf tl, spGo (ks ++ tl) (.keyrun buf) = spGo tl (.keyrun (ks.reverse ++ buf)) := by
  induction ks with
  | nil => intro buf tl; simp
  | cons c ks2 ih =>
      intro buf tl
      have hc := isKeyChar_spec c (hk c (by simp))
      simp only [List.cons_append, spGo, if_neg hc.1, if_neg hc.2]
      rw [List.append_eq, ih (fun d hd => hk d (by simp [hd])) (c :: buf) tl]
      simp

theorem spGo_digitRun (ds : List Char) (hd : ∀ c ∈ ds, c.isDigit = true) :
    ∀ acc tl, spGo (ds ++ tl) (.bracket acc) = spGo tl (.bracket (ds.reverse ++ acc)) := by
  induction ds with
  | nil => intro acc tl; simp
  | cons c ds2 ih =>
      intro acc tl
      simp only [List.cons_append, spGo, hd c (by simp), if_pos]
      rw [List.append_eq, ih (fun d h2 => hd d (by simp [h2])) (c :: acc) tl]
      simp

theorem spGo_idxCore (i : Nat) (tl : List Char) :
    spGo (natChars i ++ (']' :: tl)) (.bracket []) = Seg.idx i :: spGo tl .top := by
  rw [spGo_digitRun (natChars i) (natChars_all_digit i)]
  have h1 : (']' : Char).isDigit = false := by decide
  have h2 : natChars i ≠ [] := natChars_ne_nil i
  simp [spGo, h1, h2, charsToNat_natChars i]

theorem spGo_keySeg (k : String) (hk : validKey k = true) (tl : List Char)
    (cont : List Seg)
    (htl : ∀ buf, spGo tl (.keyrun buf) = Seg.key (String.mk buf.reverse) :: cont) :
    spGo (k.data ++ tl) .top = Seg.key k :: cont := by
  have hk2 : k ≠ "" ∧ ∀ c ∈ k.data, isKeyChar c = true := by
    simpa [validKey, List.all_eq_true] using hk
  have hne : k.data ≠ [] := by
    intro h
    exact hk2.1 (by cases k; simp_all)
  obtain ⟨c0, k1, hdata⟩ := List.exists_cons_of_ne_nil hne
  have hc0 := isKeyChar_spec c0 (hk2.2 c0 (by simp [hdata]))
  rw [hdata]
  simp only [List.cons_append, spGo, if_neg hc0.1, if_neg hc0.2]
  rw [List.append_eq, spGo_keyRun k1 (fun c hc => hk2.2 c (by simp [hdata, hc])) [c0] tl,
    htl]
  all_goals (cases k; simp_all)

/-- The body of the encode/decode round trip: scanning the dot- or
bracket-prefixed rendering of a valid segment list reproduces the list,
whether the scan arrives in the idle state or inside a key run. -/
theorem spGo_encodeTail : ∀ p : List Seg, validSegs p = true →
    (spGo (encodeTail p) .top = p) ∧
    (∀ buf, spGo (encodeTail p) (.keyrun buf) = Seg.key (String.mk buf.reverse) :: p)
  | [], _ => by simp [encodeTail, spGo, spFlush]
  | .key k :: rest, h => by
      have hk : validKey k = true := by
        simp [validSegs, validSeg] at h
        exact h.1
      have hrest : validSegs rest = true := by
        simp [validSegs, validSeg] at h ⊢
        exact h.2
      have ih := spGo_encodeTail rest hrest
      have hdot : spGo ((k.data ++ encodeTail rest)) .top = Seg.key k :: rest :=
        spGo_keySeg k hk _ rest ih.2
      refine ⟨?_, ?_⟩
      · show spGo (('.' :: k.data) ++ encodeTail rest) .top = _
        simpa [spGo] using hdot
      · intro buf
        show spGo (('.' :: k.data) ++ encodeTail rest) (.keyrun buf) = _
        simpa [spGo] using hdot
  | .idx i :: rest, h => by
      have hrest : validSegs rest = true := by
        simp [validSegs, validSeg] at h ⊢
        exact h
      have ih := spGo_encodeTail rest hrest
      have hcore : spGo (natChars i ++ (']' :: encodeTail rest)) (.bracket [])
          = Seg.idx i :: rest := by
        rw [spGo_idxCore i _, ih.1]
      refine ⟨?_, ?_⟩
      · show spGo (('[' :: (natChars i ++ [']'])) ++ encodeTail rest) .top = _
        simpa [spGo, List.append_assoc] using hcore
      · intro buf
        show spGo (('[' :: (natChars i ++ [']'])) ++ encodeTail rest) (.keyrun buf) = _
        simpa [spGo, List.append_assoc] using hcore

theorem str_ne_empty_of_data (s : String) (h : s.data ≠ []) : s ≠ "" := by
  intro he
  subst he
  exact h rfl

theorem foldl_stepPath_data (p : List Seg) : ∀ base : String, base ≠ "" →
    (p.foldl stepPath base).data = base.data ++ encodeTail p := by
  induction p with
  | nil => intro base hb; simp [encodeTail]
  | cons s rest ih =>
      intro base hb
      cases s with
      | key k =>
          have hstep : stepPath base (Seg.key k) = base ++ "." ++ k := by
            simp [stepPath, hb]
          have hdata : (base ++ "." ++ k).data = base.data ++ ('.' :: k.data) := by
            simp [String.data_append]
          have hb2 : base ++ "." ++ k ≠ "" := by
            apply str_ne_empty_of_data
            rw [hdata]
            simp
          rw [List.foldl_cons, hstep, ih _ hb2, hdata]
          simp [encodeTail, segTailChars]
      | idx i =>
          have hstep : stepPath base (Seg.idx i) = base ++ "[" ++ natToString i ++ "]" := by
            simp [stepPath, hb]
          have hdata : (base ++ "[" ++ natToString i ++ "]").data
              = base.data ++ ('[' :: (natChars i ++ [']'])) := by
            simp [String.data_append, natToString]
          have hb2 : base ++ "[" ++ natToString i ++ "]" ≠ "" := by
            apply str_ne_empty_of_data
            rw [hdata]
            simp
          rw [List.foldl_cons, hstep, ih _ hb2, hdata]
          simp [encodeTail, segTailChars]

theorem splitPath_encodePath (p : List Seg) (h : validSegs p = true) :
    splitPath (encodePath p) = p := by
  cases p with
  | nil => rfl
  | cons s rest =>
      have hs : validSeg s = true ∧ validSegs rest = true := by
        simpa [validSegs] using h
      cases s with
      | key k =>
          have hk : validKey k = true := hs.1
          have hkne : k ≠ "" := by
            have := (Bool.and_eq_true _ _).mp hk
            simpa using this.1
          have hfold : encodePath (Seg.key k :: rest) = List.foldl stepPath k rest := by
            simp [encodePath, stepPath]
          have hdata : (encodePath (Seg.key k :: rest)).data = k.data ++ encodeTail rest := by
            by_cases hr : rest = []
            · subst hr; simp [hfold, encodeTail]
            · rw [hfold, foldl_stepPath_data rest k hkne]
          show spGo (encodePath (Seg.key k :: rest)).data .top = _
          rw [hdata]
          exact spGo_keySeg k hk _ rest (spGo_encodeTail rest hs.2).2
      | idx i =>
          have hbase : stepPath "" (Seg.idx i) = "[" ++ natToString i ++ "]" := by
            simp [stepPath]
          have hbne : ("[" ++ natToString i ++ "]" : String) ≠ "" := by
            apply str_ne_empty_of_data
            simp [String.data_append]
          have hbdata : ("[" ++ natToString i ++ "]" : String).data
              = '[' :: (natChars i ++ [']']) := by
            simp [String.data_append, natToString]
          have hdata : (encodePath (Seg.idx i :: rest)).data
              = '[' :: (natChars i ++ ([']'] ++ encodeTail rest)) := by
            by_cases hr : rest = []
            · subst hr; simp [encodePath, hbase, hbdata, encodeTail]
            · show (List.foldl stepPath (stepPath "" (Seg.idx i)) rest).data = _
              rw [hbase, foldl_stepPath_data rest _ hbne, hbdata]
              simp
          show spGo (encodePath (Seg.idx i :: rest)).data .top = _
          rw [hdata]
          have : spGo ('[' :: (natChars i ++ ([']'] ++ encodeTail rest))) .top
              = spGo (natChars i ++ (']' :: encodeTail rest)) (.bracket []) := by
            simp [spGo]
          rw [this, spGo_idxCore i _, (spGo_encodeTail rest hs.2).1]

theorem encodePath_inj (p q : List Seg) (hp : validSegs p = true)
    (hq : validSegs q = true) (h : encodePath p = encodePath q) : p = q := by
  rw [← splitPath_encodePath p hp, ← splitPath_encodePath q hq, h]

/-! ## Flatten (first variant, lines 34-47)

`flatten(x, base, out)` walks the tree: for each child it builds the child
path with the dot/bracket template, recurses into plain objects and arrays,
assigns string leaves into the threaded `out` object, and skips any other
leaf.  `flattenTop` is the `flatten(src)` entry point. -/

mutual

def flattenJS : JS → String → List (String × String) → List (String × String)
  | .arr l, base, out => flattenArr l base 0 out
  | .obj m, base, out => flattenObj m base out
  | _, _, out => out
termination_by structural x => x

def flattenArr : List JS → String → Nat → List (String × String) → List (String × String)
  | [], _, _, out => out
  | v :: vs, base, i, out =>
      flattenArr vs base (i + 1)
        (match v with
         | .arr l => flattenJS (.arr l) (stepPath base (.idx i)) out
         | .obj m => flattenJS (.obj m) (stepPath base (.idx i)) out
         | .str s => upsert out (stepPath base (.idx i)) s
         | _ => out)
termination_by structural x => x

def flattenObj : List (String × JS) → String → List (String × String) → List (String × String)
  | [], _, out => out
  | (k, v) :: fs, base, out =>
      flattenObj fs base
        (match v with
         | .arr l => flattenJS (.arr l) (stepPath base (.key k)) out
         | .obj m => flattenJS (.obj m) (stepPath base (.key k)) out
         | .str s => upsert out (stepPath base (.key k)) s
         | _ => out)
termination_by structural x => x

end

def flattenTop (x : JS) : List (String × String) := flattenJS x "" []

/-! ## Canonical trees

`canonJS` carves out the trees for which the flatten/inflate round trip can
work at all: only string leaves, plain objects and arrays; every container
nonempty; every object key nonempty, free of dots and brackets, and not
repeated within its object. -/

mutual

def canonJS : JS → Bool
  | .str _ => true
  | .arr l => !l.isEmpty && canonArr l
  | .obj m => !m.isEmpty && canonObjFields m
  | _ => false
termination_by structural x => x

def canonArr : List JS → Bool
  | [] => true
  | v :: vs => canonJS v && canonArr vs
termination_by structural x => x

def canonObjFields : List (String × JS) → Bool
  | [] => true
  | (k, v) :: fs => validKey k && !(keysOf fs).contains k && canonJS v && canonObjFields fs
termination_by structural x => x

end

/-! ## Segment-level flatten (proof device)

`flatSegJS` lists the string leaves of a tree in depth-first order together
with their segment paths; the bridge lemmas below connect it to `flattenJS`,
whose keys are the `encodePath` images of these paths. -/

mutual

def flatSegJS : JS → List (List Seg × String)
  | .str s => [([], s)]
  | .arr l => flatSegArr l 0
  | .obj m => flatSegObj m
  | _ => []
termination_by structural x => x

def flatSegArr : List JS → Nat → List (List Seg × String)
  | [], _ => []
  | v :: vs, i =>
      (flatSegJS v).map (fun pv => (Seg.idx i :: pv.1, pv.2)) ++ flatSegArr vs (i + 1)
termination_by structural x => x

def flatSegObj : List (String × JS) → List (List Seg × String)
  | [] => []
  | (k, v) :: fs =>
      (flatSegJS v).map (fun pv => (Seg.key k :: pv.1, pv.2)) ++ flatSegObj fs
termination_by structural x => x

end

/-! ## setPath and inflate (lines 60-73)

`setPath(obj, parts, val)` walks the parts, creating a fresh `[]` or `{}` at
a missing (or null) position depending on whether the next part is a number,
and assigns the value at the last part.  JavaScript particulars modelled
here: a numeric part used on a plain object becomes the decimal string key;
a canonical-decimal string key used on an array addresses the index
(`keyAsIndex`); writing past the end of an array fills the gap with nulls
(JSON.stringify renders the holes as null); a named non-index property
written to an array is invisible to JSON.stringify and is modelled as a
no-op; property assignment on a string or other primitive throws a TypeError
in strict mode. -/

def segToKey : Seg → String
  | .key s => s
  | .idx i => natToString i

/-- A string property key that addresses an array index: nonempty, all
digits, and canonical (no leading zeros), per the array-index rule. -/
def keyAsIndex (s : String) : Option Nat :=
  if s.data ≠ [] ∧ s.data.all Char.isDigit ∧ natToString (charsToNat s.data) = s
  then some (charsToNat s.data) else none

def padSet (l : List JS) (i : Nat) (v : JS) : List JS :=
  if i < l.length then l.set i v
  else l ++ List.replicate (i - l.length) JS.nullv ++ [v]

def assignSeg : JS → Seg → JS → Except String JS
  | .obj m, s, val => .ok (.obj (upsert m (segToKey s) val))
  | .arr l, .idx i, val => .ok (.arr (padSet l i val))
  | .arr l, .key s, val =>
      match keyAsIndex s with
      | some i => .ok (.arr (padSet l i val))
      | none => .ok (.arr l)
  | _, _, _ => .error "TypeError"

def childGet : JS → Seg → Option JS
  | .obj m, s => alookup m (segToKey s)
  | .arr l, .idx i => l[i]?
  | .arr l, .key s =>
      (match keyAsIndex s with
       | some i => l[i]?
       | none => none)
  | .str s, .idx i => (s.data[i]?).map (fun c => JS.str (String.mk [c]))
  | _, _ => none

/-- The walk treats both a missing property and a null value as absent
(`cur[k] == null` is loose equality). -/
def childNonNull (v : JS) (s : Seg) : Option JS :=
  match childGet v s with
  | some .nullv => none
  | some c => some c
  | none => none

def freshFor : Seg → JS
  | .idx _ => .arr []
  | .key _ => .obj []

def setPathSeg : JS → List Seg → JS → Except String JS
  | cur, [], val => assignSeg cur (.key "undefined") val
  | cur, [s], val => assignSeg cur s val
  | cur, s :: s2 :: rest, val =>
      (match setPathSeg
          (match childNonNull cur s with
           | some c => c
           | none => freshFor s2) (s2 :: rest) val with
       | .ok child2 => assignSeg cur s child2
       | .error e => .error e)
termination_by structural _cur parts _val => parts

def inflateGo : List (String × String) → JS → Except String JS
  | [], root => .ok root
  | (k, v) :: rest, root =>
      (match setPathSeg root (splitPath k) (.str v) with
       | .ok r2 => inflateGo rest r2
       | .error e => .error e)

/-- `inflate(map)`: fold `setPath` over the entries starting from `{}`. -/
def inflateF (m : List (String × String)) : Except String JS := inflateGo m (JS.obj [])

instance : DecidableEq (Except String JS) := fun a b =>
  match a, b with
  | .ok x, .ok y => decidable_of_iff (x = y) (by simp)
  | .error e, .error f => decidable_of_iff (e = f) (by simp)
  | .ok _, .error _ => isFalse (by simp)
  | .error _, .ok _ => isFalse (by simp)

example : flattenTop (JS.obj [("a", JS.obj [("b", JS.str "Hello")])]) = [("a.b", "Hello")] := by
  decide

example : flattenTop (JS.obj [("list", JS.arr [JS.str "x", JS.str "y"])])
    = [("list[0]", "x"), ("list[1]", "y")] := by decide

example : inflateF [("a.b", "Hej")] = .ok (JS.obj [("a", JS.obj [("b", JS.str "Hej")])]) := by
  decide

example : inflateF [("list[0]", "x"), ("list[1]", "y")]
    = .ok (JS.obj [("list", JS.arr [JS.str "x", JS.str "y"])]) := by decide

/-! ## Group-insertion lemmas for setPath

`addAll` folds `setPathSeg` over a list of (segment path, value) entries; the
lemmas below describe how a block of entries sharing a first segment inserts a
whole subtree into one slot of the root container. -/

def isContainer : JS → Bool
  | .arr _ => true
  | .obj _ => true
  | _ => false

def addAll : List (List Seg × String) → JS → Except String JS
  | [], root => .ok root
  | (p, v) :: rest, root =>
      (match setPathSeg root p (.str v) with
       | .ok r2 => addAll rest r2
       | .error e => .error e)

def prefixSeg (s : Seg) (L : List (List Seg × String)) : List (List Seg × String) :=
  L.map (fun pv => (s :: pv.1, pv.2))

def reVal (L : List (List Seg × String)) (vs : List String) : List (List Seg × String) :=
  List.zipWith (fun pv v => (pv.1, v)) L vs

theorem inflateGo_eq_addAll : ∀ (m : List (String × String)) (root : JS),
    inflateGo m root = addAll (m.map (fun kv => (splitPath kv.1, kv.2))) root := by
  intro m
  induction m with
  | nil => intro root; rfl
  | cons kv rest ih =>
      intro root
      obtain ⟨k, v⟩ := kv
      have hr : addAll (((k, v) :: rest).map (fun kv => (splitPath kv.1, kv.2))) root
          = (match setPathSeg root (splitPath k) (.str v) with
             | .ok r2 => addAll (rest.map (fun kv => (splitPath kv.1, kv.2))) r2
             | .error e => .error e) := rfl
      rw [hr]
      show (match setPathSeg root (splitPath k) (.str v) with
        | .ok r2 => inflateGo rest r2
        | .error e => .error e) = _
      cases setPathSeg root (splitPath k) (.str v) with
      | ok r2 => exact ih r2
      | error e => rfl

theorem addAll_append (A B : List (List Seg × String)) : ∀ root : JS,
    addAll (A ++ B) root
      = (match addAll A root with
         | .ok r2 => addAll B r2
         | .error e => .error e) := by
  induction A with
  | nil => intro root; simp [addAll]
  | cons pv A2 ih =>
      intro root
      obtain ⟨p, v⟩ := pv
      show addAll ((p, v) :: (A2 ++ B)) root = _
      simp only [addAll]
      cases setPathSeg root p (.str v) with
      | ok r2 => simpa using ih r2
      | error e => rfl

theorem upsert_lookup_self {α : Type} (m : List (String × α)) (k : String) (v : α)
    (h : alookup m k = some v) : upsert m k v = m := by
  induction m with
  | nil => simp [alookup] at h
  | cons kv rest ih =>
      obtain ⟨k1, v1⟩ := kv
      by_cases h1 : k1 = k
      · subst h1
        simp [alookup] at h
        simp [upsert, h]
      · simp [alookup, h1] at h
        simp [upsert, h1, ih h]

theorem upsert_upsert {α : Type} (m : List (String × α)) (k : String) (a b : α) :
    upsert (upsert m k a) k b = upsert m k b := by
  induction m with
  | nil => simp [upsert]
  | cons kv rest ih =>
      obtain ⟨k1, v1⟩ := kv
      by_cases h1 : k1 = k
      · simp [upsert, h1]
      · simp [upsert, h1, ih]

theorem set_last_append {α : Type} (l : List α) (a b : α) :
    (l ++ [a]).set l.length b = l ++ [b] := by
  induction l with
  | nil => rfl
  | cons x l2 ih => simp [List.set, ih]

theorem padSet_lt (l : List JS) (i : Nat) (v : JS) (h : i < l.length) :
    padSet l i v = l.set i v := by
  simp [padSet, h]

theorem padSet_append (l : List JS) (v : JS) :
    padSet l l.length v = l ++ [v] := by
  simp [padSet]

theorem setPathSeg_obj_shape (m : List (String × JS)) (parts : List Seg) (val : JS) :
    ∀ r, setPathSeg (.obj m) parts val = .ok r → ∃ m2, r = .obj m2 := by
  intro r h
  match parts with
  | [] =>
      simp only [setPathSeg, assignSeg] at h
      { simp only [Except.ok.injEq] at h; exact ⟨_, h.symm⟩ }
  | [s] =>
      simp only [setPathSeg, assignSeg] at h
      { simp only [Except.ok.injEq] at h; exact ⟨_, h.symm⟩ }
  | s :: s2 :: rest =>
      simp only [setPathSeg] at h
      cases hrec : setPathSeg (match childNonNull (.obj m) s with
          | some c => c
          | none => freshFor s2) (s2 :: rest) val with
      | ok c2 =>
          rw [hrec] at h
          simp only [assignSeg] at h
          { simp only [Except.ok.injEq] at h; exact ⟨_, h.symm⟩ }
      | error e => rw [hrec] at h; simp at h

theorem setPathSeg_arr_shape (l : List JS) (parts : List Seg) (val : JS) :
    ∀ r, setPathSeg (.arr l) parts val = .ok r → ∃ l2, r = .arr l2 := by
  intro r h
  match parts with
  | [] =>
      simp only [setPathSeg, assignSeg, segToKey] at h
      cases hk : keyAsIndex "undefined" with
      | some i => rw [hk] at h; { simp only [Except.ok.injEq] at h; exact ⟨_, h.symm⟩ }
      | none => rw [hk] at h; { simp only [Except.ok.injEq] at h; exact ⟨_, h.symm⟩ }
  | [s] =>
      cases s with
      | key s =>
          simp only [setPathSeg, assignSeg] at h
          cases hk : keyAsIndex s with
          | some i => rw [hk] at h; { simp only [Except.ok.injEq] at h; exact ⟨_, h.symm⟩ }
          | none => rw [hk] at h; { simp only [Except.ok.injEq] at h; exact ⟨_, h.symm⟩ }
      | idx i =>
          simp only [setPathSeg, assignSeg] at h
          { simp only [Except.ok.injEq] at h; exact ⟨_, h.symm⟩ }
  | s :: s2 :: rest =>
      simp only [setPathSeg] at h
      cases hrec : setPathSeg (match childNonNull (.arr l) s with
          | some c => c
          | none => freshFor s2) (s2 :: rest) val with
      | ok c2 =>
          rw [hrec] at h
          cases s with
          | key s =>
              simp only [assignSeg] at h
              cases hk : keyAsIndex s with
              | some i => rw [hk] at h; { simp only [Except.ok.injEq] at h; exact ⟨_, h.symm⟩ }
              | none => rw [hk] at h; { simp only [Except.ok.injEq] at h; exact ⟨_, h.symm⟩ }
          | idx i =>
              simp only [assignSeg] at h
              { simp only [Except.ok.injEq] at h; exact ⟨_, h.symm⟩ }
      | error e => rw [hrec] at h; simp at h

theorem setPathSeg_container_shape (c : JS) (hc : isContainer c = true)
    (parts : List Seg) (val : JS) (r : JS) (h : setPathSeg c parts val = .ok r) :
    isContainer r = true ∧ r ≠ JS.nullv := by
  cases c with
  | arr l =>
      obtain ⟨l2, rfl⟩ := setPathSeg_arr_shape l parts val r h
      simp [isContainer]
  | obj m =>
      obtain ⟨m2, rfl⟩ := setPathSeg_obj_shape m parts val r h
      simp [isContainer]
  | str s => simp [isContainer] at hc
  | num n => simp [isContainer] at hc
  | boolv b => simp [isContainer] at hc
  | nullv => simp [isContainer] at hc

theorem setPathSeg_obj_last (m : List (String × JS)) (k : String) (val : JS) :
    setPathSeg (.obj m) [Seg.key k] val = .ok (.obj (upsert m k val)) := rfl

theorem setPathSeg_arr_last (l : List JS) (i : Nat) (val : JS) :
    setPathSeg (.arr l) [Seg.idx i] val = .ok (.arr (padSet l i val)) := rfl

theorem setPathSeg_obj_found (m : List (String × JS)) (k : String) (c : JS)
    (hc : alookup m k = some c) (hcc : isContainer c = true)
    (s2 : Seg) (rest : List Seg) (val : JS) :
    setPathSeg (.obj m) (Seg.key k :: s2 :: rest) val
      = (match setPathSeg c (s2 :: rest) val with
         | .ok c2 => .ok (.obj (upsert m k c2))
         | .error e => .error e) := by
  have hnn : childNonNull (.obj m) (Seg.key k) = some c := by
    simp only [childNonNull, childGet, segToKey, hc]
    cases c <;> simp_all [isContainer]
  simp only [setPathSeg, hnn]
  cases setPathSeg c (s2 :: rest) val <;> simp [assignSeg, segToKey]

theorem setPathSeg_obj_create (m : List (String × JS)) (k : String)
    (hc : alookup m k = none) (s2 : Seg) (rest : List Seg) (val : JS) :
    setPathSeg (.obj m) (Seg.key k :: s2 :: rest) val
      = (match setPathSeg (freshFor s2) (s2 :: rest) val with
         | .ok c2 => .ok (.obj (upsert m k c2))
         | .error e => .error e) := by
  have hnn : childNonNull (.obj m) (Seg.key k) = none := by
    simp [childNonNull, childGet, segToKey, hc]
  simp only [setPathSeg, hnn]
  cases setPathSeg (freshFor s2) (s2 :: rest) val <;> simp [assignSeg, segToKey]

theorem setPathSeg_arr_found (l : List JS) (i : Nat) (c : JS)
    (hc : l[i]? = some c) (hcc : isContainer c = true)
    (s2 : Seg) (rest : List Seg) (val : JS) :
    setPathSeg (.arr l) (Seg.idx i :: s2 :: rest) val
      = (match setPathSeg c (s2 :: rest) val with
         | .ok c2 => .ok (.arr (l.set i c2))
         | .error e => .error e) := by
  have hlt : i < l.length := (List.getElem?_eq_some_iff.mp hc).1
  have hnn : childNonNull (.arr l) (Seg.idx i) = some c := by
    simp only [childNonNull, childGet, hc]
    cases c <;> simp_all [isContainer]
  simp only [setPathSeg, hnn]
  cases setPathSeg c (s2 :: rest) val <;> simp [assignSeg, padSet_lt _ _ _ hlt]

theorem setPathSeg_arr_create (l : List JS) (s2 : Seg) (rest : List Seg) (val : JS) :
    setPathSeg (.arr l) (Seg.idx l.length :: s2 :: rest) val
      = (match setPathSeg (freshFor s2) (s2 :: rest) val with
         | .ok c2 => .ok (.arr (l ++ [c2]))
         | .error e => .error e) := by
  have hnn : childNonNull (.arr l) (Seg.idx l.length) = none := by
    simp [childNonNull, childGet]
  simp only [setPathSeg, hnn]
  cases setPathSeg (freshFor s2) (s2 :: rest) val <;> simp [assignSeg, padSet_append]

/-- Inserting a block of entries that all extend key `k` into an object whose
`k` slot already holds a container amounts to inserting the stripped entries
into that container. -/
theorem addAll_prefix_obj : ∀ (L : List (List Seg × String)),
    (∀ pv ∈ L, pv.1 ≠ []) → ∀ (m : List (String × JS)) (k : String) (c : JS),
    alookup m k = some c → isContainer c = true →
    addAll (prefixSeg (Seg.key k) L) (.obj m)
      = (match addAll L c with
         | .ok c2 => .ok (.obj (upsert m k c2))
         | .error e => .error e) := by
  intro L
  induction L with
  | nil =>
      intro _ m k c hc hcc
      simp [prefixSeg, addAll, upsert_lookup_self m k c hc]
  | cons pv L2 ih =>
      intro hne m k c hc hcc
      obtain ⟨p, v⟩ := pv
      have hp : p ≠ [] := hne (p, v) (by simp)
      obtain ⟨s2, rest, rfl⟩ : ∃ s2 rest, p = s2 :: rest := by
        cases p with
        | nil => exact absurd rfl hp
        | cons s2 rest => exact ⟨s2, rest, rfl⟩
      show addAll ((Seg.key k :: s2 :: rest, v) :: prefixSeg (Seg.key k) L2) (.obj m) = _
      simp only [addAll, setPathSeg_obj_found m k c hc hcc s2 rest (.str v)]
      cases hrec : setPathSeg c (s2 :: rest) (.str v) with
      | ok c2 =>
          have hcc2 := (setPathSeg_container_shape c hcc _ _ _ hrec).1
          dsimp only
          rw [ih (fun pv h2 => hne pv (by simp [h2])) (upsert m k c2) k c2
            (alookup_upsert_self m k c2) hcc2]
          cases addAll L2 c2 <;> simp [upsert_upsert]
      | error e => rfl

theorem addAll_prefix_arr : ∀ (L : List (List Seg × String)),
    (∀ pv ∈ L, pv.1 ≠ []) → ∀ (l : List JS) (i : Nat) (c : JS),
    l[i]? = some c → isContainer c = true →
    addAll (prefixSeg (Seg.idx i) L) (.arr l)
      = (match addAll L c with
         | .ok c2 => .ok (.arr (l.set i c2))
         | .error e => .error e) := by
  intro L
  induction L with
  | nil =>
      intro _ l i c hc hcc
      have hset : l.set i c = l := by
        obtain ⟨hlt, he⟩ := List.getElem?_eq_some_iff.mp hc
        subst he
        apply List.ext_getElem
        · simp
        · intro n h1 h2
          rw [List.getElem_set]
          split <;> simp_all
      simp [prefixSeg, addAll, hset]
  | cons pv L2 ih =>
      intro hne l i c hc hcc
      obtain ⟨p, v⟩ := pv
      have hp : p ≠ [] := hne (p, v) (by simp)
      obtain ⟨s2, rest, rfl⟩ : ∃ s2 rest, p = s2 :: rest := by
        cases p with
        | nil => exact absurd rfl hp
        | cons s2 rest => exact ⟨s2, rest, rfl⟩
      show addAll ((Seg.idx i :: s2 :: rest, v) :: prefixSeg (Seg.idx i) L2) (.arr l) = _
      simp only [addAll, setPathSeg_arr_found l i c hc hcc s2 rest (.str v)]
      cases hrec : setPathSeg c (s2 :: rest) (.str v) with
      | ok c2 =>
          have hcc2 := (setPathSeg_container_shape c hcc _ _ _ hrec).1
          have hlt : i < l.length := (List.getElem?_eq_some_iff.mp hc).1
          dsimp only
          rw [ih (fun pv h2 => hne pv (by simp [h2])) (l.set i c2) i c2
            (by simp [List.getElem?_set_self, hlt]) hcc2]
          cases addAll L2 c2 <;> simp [List.set_set]
      | error e => rfl

/-! ## Leaf substitution (proof device)

`substJS t vs` replaces the string leaves of `t` in depth-first order by the
values drawn from `vs`, returning the rebuilt tree and the unused suffix of
`vs`.  Inflating the flat mapping of `t` with replaced values produces exactly
`substJS` of those values, which is what the main run of the script does. -/

mutual

def substJS : JS → List String → JS × List String
  | .str s, vs =>
      (match vs with
       | v :: vr => (.str v, vr)
       | [] => (.str s, []))
  | .arr l, vs => (JS.arr (substArr l vs).1, (substArr l vs).2)
  | .obj m, vs => (JS.obj (substObj m vs).1, (substObj m vs).2)
  | x, vs => (x, vs)
termination_by structural x => x

def substArr : List JS → List String → List JS × List String
  | [], vs => ([], vs)
  | v :: rest, vs =>
      ((substJS v vs).1 :: (substArr rest (substJS v vs).2).1,
       (substArr rest (substJS v vs).2).2)
termination_by structural x => x

def substObj : List (String × JS) → List String → List (String × JS) × List String
  | [], vs => ([], vs)
  | (k, v) :: rest, vs =>
      ((k, (substJS v vs).1) :: (substObj rest (substJS v vs).2).1,
       (substObj rest (substJS v vs).2).2)
termination_by structural x => x

end

mutual

theorem substJS_snd : ∀ (t : JS) (vs : List String),
    (substJS t vs).2 = vs.drop (flatSegJS t).length
  | .str s, vs => by cases vs <;> simp [substJS, flatSegJS]
  | .num n, vs => by simp [substJS, flatSegJS]
  | .boolv b, vs => by simp [substJS, flatSegJS]
  | .nullv, vs => by simp [substJS, flatSegJS]
  | .arr l, vs => by
      simp only [substJS, flatSegJS]
      exact substArr_snd l vs 0
  | .obj m, vs => by
      simp only [substJS, flatSegJS]
      exact substObj_snd m vs
termination_by structural x => x

theorem substArr_snd : ∀ (l : List JS) (vs : List String) (i : Nat),
    (substArr l vs).2 = vs.drop (flatSegArr l i).length
  | [], vs, i => by simp [substArr, flatSegArr]
  | v :: rest, vs, i => by
      simp only [substArr, flatSegArr, List.length_append, List.length_map]
      rw [substArr_snd rest _ (i + 1), substJS_snd v vs, List.drop_drop]
termination_by structural x => x

theorem substObj_snd : ∀ (m : List (String × JS)) (vs : List String),
    (substObj m vs).2 = vs.drop (flatSegObj m).length
  | [], vs => by simp [substObj, flatSegObj]
  | (k, v) :: rest, vs => by
      simp only [substObj, flatSegObj, List.length_append, List.length_map]
      rw [substObj_snd rest _, substJS_snd v vs, List.drop_drop]
termination_by structural x => x

end

mutual

theorem substJS_id : ∀ (t : JS) (ws : List String),
    substJS t ((flatSegJS t).map Prod.snd ++ ws) = (t, ws)
  | .str s, ws => by simp [substJS, flatSegJS]
  | .num n, ws => by simp [substJS, flatSegJS]
  | .boolv b, ws => by simp [substJS, flatSegJS]
  | .nullv, ws => by simp [substJS, flatSegJS]
  | .arr l, ws => by
      simp only [substJS, flatSegJS]
      rw [substArr_id l ws 0]
  | .obj m, ws => by
      simp only [substJS, flatSegJS]
      rw [substObj_id m ws]
termination_by structural x => x

theorem substArr_id : ∀ (l : List JS) (ws : List String) (i : Nat),
    substArr l ((flatSegArr l i).map Prod.snd ++ ws) = (l, ws)
  | [], ws, i => by simp [substArr, flatSegArr]
  | v :: rest, ws, i => by
      have hmap : (flatSegArr (v :: rest) i).map Prod.snd
          = (flatSegJS v).map Prod.snd
            ++ (flatSegArr rest (i + 1)).map Prod.snd := by
        simp [flatSegArr]
      rw [hmap, List.append_assoc]
      simp only [substArr]
      rw [substJS_id v _, substArr_id rest ws (i + 1)]
termination_by structural x => x

theorem substObj_id : ∀ (m : List (String × JS)) (ws : List String),
    substObj m ((flatSegObj m).map Prod.snd ++ ws) = (m, ws)
  | [], ws => by simp [substObj, flatSegObj]
  | (k, v) :: rest, ws => by
      have hmap : (flatSegObj ((k, v) :: rest)).map Prod.snd
          = (flatSegJS v).map Prod.snd ++ (flatSegObj rest).map Prod.snd := by
        simp [flatSegObj]
      rw [hmap, List.append_assoc]
      simp only [substObj]
      rw [substJS_id v _, substObj_id rest ws]
termination_by structural x => x

end

theorem reVal_self (L : List (List Seg × String)) : reVal L (L.map Prod.snd) = L := by
  induction L with
  | nil => rfl
  | cons pv L2 ih => simp [reVal, List.zipWith] at ih ⊢; exact ih

theorem reVal_append (A B : List (List Seg × String)) : ∀ vs : List String,
    A.length ≤ vs.length →
    reVal (A ++ B) vs = reVal A vs ++ reVal B (vs.drop A.length) := by
  induction A with
  | nil => intro vs _; simp [reVal]
  | cons pv A2 ih =>
      intro vs hlen
      cases vs with
      | nil => simp at hlen
      | cons v vr =>
          simp only [List.cons_append, reVal, List.zipWith, List.append_eq] at ih ⊢
          rw [ih vr (by simpa using hlen)]
          simp

theorem reVal_prefixSeg (s : Seg) (L : List (List Seg × String)) : ∀ vs,
    reVal (prefixSeg s L) vs = prefixSeg s (reVal L vs) := by
  induction L with
  | nil => intro vs; simp [prefixSeg, reVal]
  | cons pv L2 ih =>
      intro vs
      cases vs with
      | nil => simp [prefixSeg, reVal]
      | cons v vr => simp [prefixSeg, reVal, List.zipWith] at ih ⊢; exact ih vr

theorem reVal_fst (L : List (List Seg × String)) : ∀ vs pv, pv ∈ reVal L vs →
    ∃ pv0, pv0 ∈ L ∧ pv.1 = pv0.1 := by
  induction L with
  | nil => intro vs pv h; simp [reVal] at h
  | cons q L2 ih =>
      intro vs pv h
      cases vs with
      | nil => simp [reVal] at h
      | cons v vr =>
          simp only [reVal, List.zipWith] at h
          rcases List.mem_cons.mp h with h | h
          · exact ⟨q, by simp, by simp [h]⟩
          · obtain ⟨pv0, h0, h1⟩ := ih vr pv h
            exact ⟨pv0, by simp [h0], h1⟩

def freshLike : JS → JS
  | .arr _ => .arr []
  | _ => .obj []

theorem canonArr_cons (v : JS) (rest : List JS) (h : canonArr (v :: rest) = true) :
    canonJS v = true ∧ canonArr rest = true := by
  simpa [canonArr] using h

theorem canonObjFields_cons (k : String) (v : JS) (fs : List (String × JS))
    (h : canonObjFields ((k, v) :: fs) = true) :
    validKey k = true ∧ k ∉ keysOf fs ∧ canonJS v = true ∧ canonObjFields fs = true := by
  have h2 := h
  simp only [canonObjFields, Bool.and_eq_true] at h2
  refine ⟨h2.1.1.1, ?_, h2.1.2, h2.2⟩
  intro hmem
  have h3 := h2.1.1.2
  simp only [Bool.not_eq_true'] at h3
  rw [List.contains_eq_any_beq] at h3
  simp only [List.any_eq_false] at h3
  have h4 := h3 k hmem
  simp at h4

theorem canonJS_arr (l : List JS) (h : canonJS (.arr l) = true) :
    l ≠ [] ∧ canonArr l = true := by
  simpa [canonJS, List.isEmpty_iff] using h

theorem canonJS_obj (m : List (String × JS)) (h : canonJS (.obj m) = true) :
    m ≠ [] ∧ canonObjFields m = true := by
  simpa [canonJS, List.isEmpty_iff] using h

mutual

theorem flatSegJS_ne_nil : ∀ t, canonJS t = true → flatSegJS t ≠ []
  | .str s, _ => by simp [flatSegJS]
  | .num n, h => by simp [canonJS] at h
  | .boolv b, h => by simp [canonJS] at h
  | .nullv, h => by simp [canonJS] at h
  | .arr l, h => by
      have h2 := canonJS_arr l h
      simpa only [flatSegJS] using flatSegArr_ne_nil l h2.1 h2.2 0
  | .obj m, h => by
      have h2 := canonJS_obj m h
      simpa only [flatSegJS] using flatSegObj_ne_nil m h2.1 h2.2
termination_by structural x => x

theorem flatSegArr_ne_nil : ∀ l, l ≠ [] → canonArr l = true → ∀ i, flatSegArr l i ≠ []
  | [], h, _ => absurd rfl h
  | v :: rest, _, h => by
      intro i
      have h2 := canonArr_cons v rest h
      have hv := flatSegJS_ne_nil v h2.1
      simp only [flatSegArr]
      intro hcon
      rw [List.append_eq_nil] at hcon
      exact hv (by simpa using hcon.1)
termination_by structural x => x

theorem flatSegObj_ne_nil : ∀ m, m ≠ [] → canonObjFields m = true → flatSegObj m ≠ []
  | [], h, _ => absurd rfl h
  | (k, v) :: fs, _, h => by
      have h2 := canonObjFields_cons k v fs h
      have hv := flatSegJS_ne_nil v h2.2.2.1
      simp only [flatSegObj]
      intro hcon
      rw [List.append_eq_nil] at hcon
      exact hv (by simpa using hcon.1)
termination_by structural x => x

end

theorem flatSeg_first (t : JS) (hc : canonJS t = true) (hcont : isContainer t = true) :
    ∃ s2 rest0 w0 L2, flatSegJS t = (s2 :: rest0, w0) :: L2 ∧ freshFor s2 = freshLike t := by
  cases t with
  | arr l =>
      obtain ⟨hne, hca⟩ := canonJS_arr l hc
      cases l with
      | nil => exact absurd rfl hne
      | cons v rest =>
          have h2 := canonArr_cons v rest hca
          have hv := flatSegJS_ne_nil v h2.1
          obtain ⟨pv, L', hpv⟩ := List.exists_cons_of_ne_nil hv
          have heq : flatSegJS (JS.arr (v :: rest))
              = (Seg.idx 0 :: pv.1, pv.2)
                :: ((L'.map (fun q => (Seg.idx 0 :: q.1, q.2))) ++ flatSegArr rest 1) := by
            simp [flatSegJS, flatSegArr, hpv]
          exact ⟨Seg.idx 0, pv.1, pv.2, _, heq, rfl⟩
  | obj m =>
      obtain ⟨hne, hcf⟩ := canonJS_obj m hc
      cases m with
      | nil => exact absurd rfl hne
      | cons kv fs =>
          obtain ⟨k, v⟩ := kv
          have h2 := canonObjFields_cons k v fs hcf
          have hv := flatSegJS_ne_nil v h2.2.2.1
          obtain ⟨pv, L', hpv⟩ := List.exists_cons_of_ne_nil hv
          have heq : flatSegJS (JS.obj ((k, v) :: fs))
              = (Seg.key k :: pv.1, pv.2)
                :: ((L'.map (fun q => (Seg.key k :: q.1, q.2))) ++ flatSegObj fs) := by
            simp [flatSegJS, flatSegObj, hpv]
          exact ⟨Seg.key k, pv.1, pv.2, _, heq, rfl⟩
  | str s => simp [isContainer] at hcont
  | num n => simp [isContainer] at hcont
  | boolv b => simp [isContainer] at hcont
  | nullv => simp [isContainer] at hcont

theorem flatSegArr_path_ne : ∀ (l : List JS) (i : Nat) pv, pv ∈ flatSegArr l i → pv.1 ≠ [] := by
  intro l
  induction l with
  | nil => intro i pv h; simp [flatSegArr] at h
  | cons v rest ih =>
      intro i pv h
      simp only [flatSegArr, List.mem_append, List.mem_map] at h
      rcases h with ⟨q, _, rfl⟩ | h
      · simp
      · exact ih (i + 1) pv h

theorem flatSegObj_path_ne : ∀ (m : List (String × JS)) pv, pv ∈ flatSegObj m → pv.1 ≠ [] := by
  intro m
  induction m with
  | nil => intro pv h; simp [flatSegObj] at h
  | cons kv fs ih =>
      obtain ⟨k, v⟩ := kv
      intro pv h
      simp only [flatSegObj, List.mem_append, List.mem_map] at h
      rcases h with ⟨q, _, rfl⟩ | h
      · simp
      · exact ih pv h

theorem flatSegJS_path_ne (t : JS) (h : isContainer t = true) :
    ∀ pv ∈ flatSegJS t, pv.1 ≠ [] := by
  cases t with
  | arr l => simpa only [flatSegJS] using flatSegArr_path_ne l 0
  | obj m => simpa only [flatSegJS] using flatSegObj_path_ne m
  | str s => simp [isContainer] at h
  | num n => simp [isContainer] at h
  | boolv b => simp [isContainer] at h
  | nullv => simp [isContainer] at h

theorem flatSegArr_head : ∀ (l : List JS) (i : Nat) pv, pv ∈ flatSegArr l i →
    ∃ j q, i ≤ j ∧ pv.1 = Seg.idx j :: q := by
  intro l
  induction l with
  | nil => intro i pv h; simp [flatSegArr] at h
  | cons v rest ih =>
      intro i pv h
      simp only [flatSegArr, List.mem_append, List.mem_map] at h
      rcases h with ⟨q, _, rfl⟩ | h
      · exact ⟨i, q.1, le_refl i, rfl⟩
      · obtain ⟨j, q, hj, hq⟩ := ih (i + 1) pv h
        exact ⟨j, q, by omega, hq⟩

theorem flatSegObj_head : ∀ (m : List (String × JS)) pv, pv ∈ flatSegObj m →
    ∃ k q, k ∈ keysOf m ∧ pv.1 = Seg.key k :: q := by
  intro m
  induction m with
  | nil => intro pv h; simp [flatSegObj] at h
  | cons kv fs ih =>
      obtain ⟨k, v⟩ := kv
      intro pv h
      simp only [flatSegObj, List.mem_append, List.mem_map] at h
      rcases h with ⟨q, _, rfl⟩ | h
      · exact ⟨k, q.1, by simp [keysOf], rfl⟩
      · obtain ⟨k2, q, hk, hq⟩ := ih pv h
        exact ⟨k2, q, by simp [keysOf] at hk ⊢; exact Or.inr hk, hq⟩

mutual

theorem flatSegJS_valid : ∀ t, canonJS t = true → ∀ pv, pv ∈ flatSegJS t →
    validSegs pv.1 = true
  | .str s, _ => by intro pv h; simp [flatSegJS] at h; simp [h, validSegs]
  | .num n, h => by simp [canonJS] at h
  | .boolv b, h => by simp [canonJS] at h
  | .nullv, h => by simp [canonJS] at h
  | .arr l, h => by
      have h2 := canonJS_arr l h
      simpa only [flatSegJS] using flatSegArr_valid l h2.2 0
  | .obj m, h => by
      have h2 := canonJS_obj m h
      simpa only [flatSegJS] using flatSegObj_valid m h2.2
termination_by structural x => x

theorem flatSegArr_valid : ∀ l, canonArr l = true → ∀ (i : Nat) pv, pv ∈ flatSegArr l i →
    validSegs pv.1 = true
  | [], _ => by intro i pv h; simp [flatSegArr] at h
  | v :: rest, h => by
      intro i pv hmem
      have h2 := canonArr_cons v rest h
      simp only [flatSegArr, List.mem_append, List.mem_map] at hmem
      rcases hmem with ⟨q, hq, rfl⟩ | hmem
      · have := flatSegJS_valid v h2.1 q hq
        simpa [validSegs, validSeg] using this
      · exact flatSegArr_valid rest h2.2 (i + 1) pv hmem
termination_by structural x => x

theorem flatSegObj_valid : ∀ m, canonObjFields m = true → ∀ pv, pv ∈ flatSegObj m →
    validSegs pv.1 = true
  | [], _ => by intro pv h; simp [flatSegObj] at h
  | (k, v) :: fs, h => by
      intro pv hmem
      have h2 := canonObjFields_cons k v fs h
      simp only [flatSegObj, List.mem_append, List.mem_map] at hmem
      rcases hmem with ⟨q, hq, rfl⟩ | hmem
      · have := flatSegJS_valid v h2.2.2.1 q hq
        simpa [validSegs, validSeg, h2.1] using this
      · exact flatSegObj_valid fs h2.2.2.2 pv hmem
termination_by structural x => x

end

mutual

theorem flatSegJS_nodup : ∀ t, canonJS t = true → ((flatSegJS t).map Prod.fst).Nodup
  | .str s, _ => by simp [flatSegJS]
  | .num n, h => by simp [canonJS] at h
  | .boolv b, h => by simp [canonJS] at h
  | .nullv, h => by simp [canonJS] at h
  | .arr l, h => by
      have h2 := canonJS_arr l h
      simpa only [flatSegJS] using flatSegArr_nodup l h2.2 0
  | .obj m, h => by
      have h2 := canonJS_obj m h
      simpa only [flatSegJS] using flatSegObj_nodup m h2.2
termination_by structural x => x

theorem flatSegArr_nodup : ∀ l, canonArr l = true → ∀ i : Nat,
    ((flatSegArr l i).map Prod.fst).Nodup
  | [], _ => by intro i; simp [flatSegArr]
  | v :: rest, h => by
      intro i
      have h2 := canonArr_cons v rest h
      have hv := flatSegJS_nodup v h2.1
      have hrest := flatSegArr_nodup rest h2.2 (i + 1)
      simp only [flatSegArr, List.map_append, List.map_map]
      rw [List.nodup_append]
      refine ⟨?_, hrest, ?_⟩
      · have hcomp : (List.map (Prod.fst ∘ fun pv : List Seg × String =>
            (Seg.idx i :: pv.1, pv.2)) (flatSegJS v))
            = ((flatSegJS v).map Prod.fst).map (fun p => Seg.idx i :: p) := by
          simp [List.map_map, Function.comp]
        rw [hcomp]
        exact hv.map (fun a b hab => by injection hab)
      · intro p hp hp2
        simp only [List.mem_map, Function.comp] at hp
        obtain ⟨pv, _, rfl⟩ := hp
        simp only [List.mem_map] at hp2
        obtain ⟨pv2, hpv2, heq⟩ := hp2
        obtain ⟨j, q, hj, hq⟩ := flatSegArr_head rest (i + 1) pv2 hpv2
        rw [hq] at heq
        have h5 := congrArg (fun l => l.head?) heq
        simp at h5
        omega
termination_by structural x => x

theorem flatSegObj_nodup : ∀ m, canonObjFields m = true →
    ((flatSegObj m).map Prod.fst).Nodup
  | [], _ => by simp [flatSegObj]
  | (k, v) :: fs, h => by
      have h2 := canonObjFields_cons k v fs h
      have hv := flatSegJS_nodup v h2.2.2.1
      have hrest := flatSegObj_nodup fs h2.2.2.2
      simp only [flatSegObj, List.map_append, List.map_map]
      rw [List.nodup_append]
      refine ⟨?_, hrest, ?_⟩
      · have hcomp : (List.map (Prod.fst ∘ fun pv : List Seg × String =>
            (Seg.key k :: pv.1, pv.2)) (flatSegJS v))
            = ((flatSegJS v).map Prod.fst).map (fun p => Seg.key k :: p) := by
          simp [List.map_map, Function.comp]
        rw [hcomp]
        exact hv.map (fun a b hab => by injection hab)
      · intro p hp hp2
        simp only [List.mem_map, Function.comp] at hp
        obtain ⟨pv, _, rfl⟩ := hp
        simp only [List.mem_map] at hp2
        obtain ⟨pv2, hpv2, heq⟩ := hp2
        obtain ⟨k2, q, hk2, hq⟩ := flatSegObj_head fs pv2 hpv2
        rw [hq] at heq
        have h5 := congrArg (fun l => l.head?) heq
        simp at h5
        subst h5
        exact h2.2.1 hk2
termination_by structural x => x

end

theorem substObj_keys : ∀ (m : List (String × JS)) (vs : List String),
    keysOf (substObj m vs).1 = keysOf m := by
  intro m
  induction m with
  | nil => intro vs; rfl
  | cons kv rest ih =>
      intro vs
      obtain ⟨k, v⟩ := kv
      simp [substObj, keysOf] at ih ⊢
      exact ih _

theorem substArr_ne_nil (l : List JS) (vs : List String) (h : l ≠ []) :
    (substArr l vs).1 ≠ [] := by
  cases l with
  | nil => exact absurd rfl h
  | cons v rest => exact List.cons_ne_nil _ _

theorem substObj_ne_nil (m : List (String × JS)) (vs : List String) (h : m ≠ []) :
    (substObj m vs).1 ≠ [] := by
  cases m with
  | nil => exact absurd rfl h
  | cons kv rest =>
      obtain ⟨k, v⟩ := kv
      exact List.cons_ne_nil _ _

mutual

theorem substJS_canon : ∀ t, canonJS t = true → ∀ vs, canonJS (substJS t vs).1 = true
  | .str s, _ => by
      intro vs
      cases vs <;> simp [substJS, canonJS]
  | .num n, h => by simp [canonJS] at h
  | .boolv b, h => by simp [canonJS] at h
  | .nullv, h => by simp [canonJS] at h
  | .arr l, h => by
      intro vs
      obtain ⟨hne, hca⟩ := canonJS_arr l h
      simp only [substJS, canonJS, Bool.and_eq_true]
      refine ⟨?_, substArr_canon l hca vs⟩
      simp [List.isEmpty_iff, substArr_ne_nil l vs hne]
  | .obj m, h => by
      intro vs
      obtain ⟨hne, hcf⟩ := canonJS_obj m h
      simp only [substJS, canonJS, Bool.and_eq_true]
      refine ⟨?_, substObj_canon m hcf vs⟩
      simp [List.isEmpty_iff, substObj_ne_nil m vs hne]
termination_by structural x => x

theorem substArr_canon : ∀ l, canonArr l = true → ∀ vs, canonArr (substArr l vs).1 = true
  | [], _ => by intro vs; simp [substArr, canonArr]
  | v :: rest, h => by
      intro vs
      have h2 := canonArr_cons v rest h
      simp only [substArr, canonArr, Bool.and_eq_true]
      exact ⟨substJS_canon v h2.1 vs, substArr_canon rest h2.2 _⟩
termination_by structural x => x

theorem substObj_canon : ∀ m, canonObjFields m = true → ∀ vs,
    canonObjFields (substObj m vs).1 = true
  | [], _ => by intro vs; simp [substObj, canonObjFields]
  | (k, v) :: fs, h => by
      intro vs
      have h2 := canonObjFields_cons k v fs h
      simp only [substObj, canonObjFields, Bool.and_eq_true]
      refine ⟨⟨⟨h2.1, ?_⟩, substJS_canon v h2.2.2.1 vs⟩, substObj_canon fs h2.2.2.2 _⟩
      rw [substObj_keys fs _]
      simp only [Bool.not_eq_true']
      rw [List.contains_eq_any_beq]
      simp only [List.any_eq_false]
      intro x hx hkx
      have hkx2 : k = x := by simpa using hkx
      exact h2.2.1 (hkx2 ▸ hx)
termination_by structural x => x

end

mutual

theorem flatSeg_substJS : ∀ t vs, (flatSegJS t).length ≤ vs.length →
    flatSegJS (substJS t vs).1 = reVal (flatSegJS t) vs
  | .str s, vs, hlen => by
      cases vs with
      | nil => simp [flatSegJS] at hlen
      | cons v vr => simp [substJS, flatSegJS, reVal, List.zipWith]
  | .num n, vs, _ => by simp [substJS, flatSegJS, reVal]
  | .boolv b, vs, _ => by simp [substJS, flatSegJS, reVal]
  | .nullv, vs, _ => by simp [substJS, flatSegJS, reVal]
  | .arr l, vs, hlen => by
      simp only [substJS, flatSegJS]
      exact flatSeg_substArr l vs 0 (by simpa [flatSegJS] using hlen)
  | .obj m, vs, hlen => by
      simp only [substJS, flatSegJS]
      exact flatSeg_substObj m vs (by simpa [flatSegJS] using hlen)
termination_by structural x => x

theorem flatSeg_substArr : ∀ l vs (i : Nat), (flatSegArr l i).length ≤ vs.length →
    flatSegArr (substArr l vs).1 i = reVal (flatSegArr l i) vs
  | [], vs, i, _ => by simp [substArr, flatSegArr, reVal]
  | v :: rest, vs, i, hlen => by
      have hlen2 : (flatSegJS v).length ≤ vs.length := by
        simp only [flatSegArr, List.length_append, List.length_map] at hlen
        omega
      have hlen3 : (flatSegArr rest (i + 1)).length
          ≤ (vs.drop (flatSegJS v).length).length := by
        simp only [flatSegArr, List.length_append, List.length_map] at hlen
        simp only [List.length_drop]
        omega
      simp only [substArr, flatSegArr]
      have hfst : ∀ X : List (List Seg × String),
          List.map (fun pv => (Seg.idx i :: pv.1, pv.2)) X = prefixSeg (Seg.idx i) X :=
        fun _ => rfl
      simp only [hfst]
      rw [reVal_append _ _ vs (by simpa [prefixSeg] using hlen2), reVal_prefixSeg]
      have hlen4 : (prefixSeg (Seg.idx i) (flatSegJS v)).length = (flatSegJS v).length := by
        simp [prefixSeg]
      rw [hlen4]
      congr 1
      · rw [flatSeg_substJS v vs hlen2]
      · rw [substJS_snd v vs]
        exact flatSeg_substArr rest (vs.drop (flatSegJS v).length) (i + 1) hlen3
termination_by structural x => x

theorem flatSeg_substObj : ∀ m vs, (flatSegObj m).length ≤ vs.length →
    flatSegObj (substObj m vs).1 = reVal (flatSegObj m) vs
  | [], vs, _ => by simp [substObj, flatSegObj, reVal]
  | (k, v) :: fs, vs, hlen => by
      have hlen2 : (flatSegJS v).length ≤ vs.length := by
        simp only [flatSegObj, List.length_append, List.length_map] at hlen
        omega
      have hlen3 : (flatSegObj fs).length
          ≤ (vs.drop (flatSegJS v).length).length := by
        simp only [flatSegObj, List.length_append, List.length_map] at hlen
        simp only [List.length_drop]
        omega
      simp only [substObj, flatSegObj]
      have hfst : ∀ X : List (List Seg × String),
          List.map (fun pv => (Seg.key k :: pv.1, pv.2)) X = prefixSeg (Seg.key k) X :=
        fun _ => rfl
      simp only [hfst]
      rw [reVal_append _ _ vs (by simpa [prefixSeg] using hlen2), reVal_prefixSeg]
      have hlen4 : (prefixSeg (Seg.key k) (flatSegJS v)).length = (flatSegJS v).length := by
        simp [prefixSeg]
      rw [hlen4]
      congr 1
      · rw [flatSeg_substJS v vs hlen2]
      · rw [substJS_snd v vs]
        exact flatSeg_substObj fs (vs.drop (flatSegJS v).length) hlen3
termination_by structural x => x

end

theorem reVal_path_ne (L : List (List Seg × String)) (vs : List String)
    (h : ∀ pv ∈ L, pv.1 ≠ []) : ∀ pv ∈ reVal L vs, pv.1 ≠ [] := by
  intro pv hm
  obtain ⟨pv0, h0, h1⟩ := reVal_fst L vs pv hm
  rw [h1]
  exact h pv0 h0

/-- Inserting a block of entries prefixed by a fresh key `k` creates the
container at `k` (its kind chosen by the next segment of the first entry) and
inserts the stripped entries there. -/
theorem addAll_prefix_obj_create (L : List (List Seg × String)) (s2 : Seg)
    (rest0 : List Seg) (v0 : String) (hne : ∀ pv ∈ L, pv.1 ≠ [])
    (m : List (String × JS)) (k : String) (hk : alookup m k = none) :
    addAll (prefixSeg (Seg.key k) ((s2 :: rest0, v0) :: L)) (.obj m)
      = (match addAll ((s2 :: rest0, v0) :: L) (freshFor s2) with
         | .ok c2 => .ok (.obj (upsert m k c2))
         | .error e => .error e) := by
  show addAll ((Seg.key k :: s2 :: rest0, v0) :: prefixSeg (Seg.key k) L) (.obj m) = _
  simp only [addAll, setPathSeg_obj_create m k hk s2 rest0 (.str v0)]
  cases hrec : setPathSeg (freshFor s2) (s2 :: rest0) (.str v0) with
  | ok c1 =>
      dsimp only
      have hcont1 : isContainer (freshFor s2) = true := by cases s2 <;> rfl
      have hcc1 := (setPathSeg_container_shape _ hcont1 _ _ _ hrec).1
      rw [addAll_prefix_obj L hne (upsert m k c1) k c1 (alookup_upsert_self m k c1) hcc1]
      cases addAll L c1 <;> simp [upsert_upsert]
  | error e => rfl

theorem addAll_prefix_arr_create (L : List (List Seg × String)) (s2 : Seg)
    (rest0 : List Seg) (v0 : String) (hne : ∀ pv ∈ L, pv.1 ≠ [])
    (l0 : List JS) :
    addAll (prefixSeg (Seg.idx l0.length) ((s2 :: rest0, v0) :: L)) (.arr l0)
      = (match addAll ((s2 :: rest0, v0) :: L) (freshFor s2) with
         | .ok c2 => .ok (.arr (l0 ++ [c2]))
         | .error e => .error e) := by
  show addAll ((Seg.idx l0.length :: s2 :: rest0, v0) :: prefixSeg (Seg.idx l0.length) L)
      (.arr l0) = _
  simp only [addAll, setPathSeg_arr_create l0 s2 rest0 (.str v0)]
  cases hrec : setPathSeg (freshFor s2) (s2 :: rest0) (.str v0) with
  | ok c1 =>
      dsimp only
      have hcont1 : isContainer (freshFor s2) = true := by cases s2 <;> rfl
      have hcc1 := (setPathSeg_container_shape _ hcont1 _ _ _ hrec).1
      rw [addAll_prefix_arr L hne (l0 ++ [c1]) l0.length c1 (by simp) hcc1]
      cases addAll L c1 <;> simp [set_last_append]
  | error e => rfl

mutual

/-- Main insertion theorem: folding `setPath` over the flat entries of a
canonical container tree, with the leaf values replaced by `vs`, starting from
an empty container of the right kind, rebuilds the tree with those values. -/
theorem addAll_tree : ∀ t, canonJS t = true → isContainer t = true →
    ∀ vs : List String, (flatSegJS t).length ≤ vs.length →
    addAll (reVal (flatSegJS t) vs) (freshLike t) = .ok (substJS t vs).1
  | .arr l, hc, _, vs, hlen => by
      obtain ⟨hne, hca⟩ := canonJS_arr l hc
      have h := addAll_arr l hca [] vs (by simpa [flatSegJS] using hlen)
      simpa only [flatSegJS, freshLike, substJS, List.nil_append] using h
  | .obj m, hc, _, vs, hlen => by
      obtain ⟨hne, hcf⟩ := canonJS_obj m hc
      have h := addAll_obj m hcf [] (by simp [keysOf]) vs
        (by simpa [flatSegJS] using hlen)
      simpa only [flatSegJS, freshLike, substJS, List.nil_append] using h
  | .str s, _, hcont, _, _ => by simp [isContainer] at hcont
  | .num n, _, hcont, _, _ => by simp [isContainer] at hcont
  | .boolv b, _, hcont, _, _ => by simp [isContainer] at hcont
  | .nullv, _, hcont, _, _ => by simp [isContainer] at hcont
termination_by structural x => x

theorem addAll_obj : ∀ fs, canonObjFields fs = true →
    ∀ m : List (String × JS), (∀ k2 ∈ keysOf fs, k2 ∉ keysOf m) →
    ∀ vs, (flatSegObj fs).length ≤ vs.length →
    addAll (reVal (flatSegObj fs) vs) (.obj m) = .ok (.obj (m ++ (substObj fs vs).1))
  | [], _ => by intro m _ vs _; simp [flatSegObj, reVal, addAll, substObj]
  | (k, v) :: fs2, h => by
      intro m hfresh vs hlen
      have h2 := canonObjFields_cons k v fs2 h
      have hkm : k ∉ keysOf m := hfresh k (by simp [keysOf])
      have hfst : ∀ X : List (List Seg × String),
          List.map (fun pv => (Seg.key k :: pv.1, pv.2)) X = prefixSeg (Seg.key k) X :=
        fun _ => rfl
      have hlen2 : (flatSegJS v).length ≤ vs.length := by
        simp only [flatSegObj, List.length_append, List.length_map] at hlen
        omega
      have hlen3 : (flatSegObj fs2).length ≤ (vs.drop (flatSegJS v).length).length := by
        simp only [flatSegObj, List.length_append, List.length_map] at hlen
        simp only [List.length_drop]
        omega
      have hfresh2 : ∀ X : JS, ∀ k2 ∈ keysOf fs2, k2 ∉ keysOf (m ++ [(k, X)]) := by
        intro X k2 hk2 hcon
        have hnm := hfresh k2 (by
          simp only [keysOf, List.map_cons]
          exact List.mem_cons_of_mem _ hk2)
        simp only [keysOf, List.map_append, List.mem_append, List.map_cons,
          List.map_nil] at hcon
        rcases hcon with hcon | hcon
        · exact hnm (by simpa [keysOf] using hcon)
        · simp at hcon
          exact h2.2.1 (hcon ▸ hk2)
      have hsplit : reVal (flatSegObj ((k, v) :: fs2)) vs
          = prefixSeg (Seg.key k) (reVal (flatSegJS v) vs)
            ++ reVal (flatSegObj fs2) (vs.drop (flatSegJS v).length) := by
        simp only [flatSegObj, hfst]
        rw [reVal_append _ _ vs (by simpa [prefixSeg] using hlen2), reVal_prefixSeg]
        congr 2
        simp [prefixSeg]
      rw [hsplit, addAll_append]
      cases hv : v with
      | str s =>
          cases vs with
          | nil =>
              rw [hv] at hlen2
              simp [flatSegJS] at hlen2
          | cons v0 vr =>
              have hA : addAll (prefixSeg (Seg.key k)
                  (reVal (flatSegJS (JS.str s)) (v0 :: vr))) (.obj m)
                  = .ok (.obj (m ++ [(k, JS.str v0)])) := by
                show addAll [(Seg.key k :: [], v0)] (.obj m) = _
                simp only [addAll, setPathSeg_obj_last]
                rw [upsert_of_not_mem m k (.str v0) hkm]
              rw [hA]
              dsimp only
              have hdrop : List.drop (flatSegJS (JS.str s)).length (v0 :: vr) = vr := by
                simp [flatSegJS]
              rw [hdrop]
              rw [addAll_obj fs2 h2.2.2.2 (m ++ [(k, JS.str v0)])
                (hfresh2 (JS.str v0)) vr (by
                  rw [hv] at hlen3
                  simpa [flatSegJS] using hlen3)]
              simp [substObj, substJS, flatSegJS]
      | arr al =>
          rw [← hv]
          have hvc : isContainer v = true := by rw [hv]; rfl
          obtain ⟨s2, rest0, w0, L2, hfse, hfl⟩ :=
            flatSeg_first v h2.2.2.1 hvc
          cases vs with
          | nil =>
              rw [hfse] at hlen2
              simp at hlen2
          | cons v0 vr =>
              have hrv : reVal (flatSegJS v) (v0 :: vr)
                  = (s2 :: rest0, v0) :: reVal L2 vr := by
                rw [hfse]; rfl
              have hne2 : ∀ pv ∈ reVal L2 vr, pv.1 ≠ [] := by
                apply reVal_path_ne
                intro pv hpv
                exact flatSegJS_path_ne v hvc pv (by rw [hfse]; simp [hpv])
              rw [hrv, addAll_prefix_obj_create (reVal L2 vr) s2 rest0 v0 hne2 m k
                (alookup_eq_none m k hkm), ← hrv, hfl]
              rw [addAll_tree v h2.2.2.1 hvc (v0 :: vr) (by simpa [hfse] using hlen2)]
              dsimp only
              rw [upsert_of_not_mem m k _ hkm]
              rw [addAll_obj fs2 h2.2.2.2 (m ++ [(k, (substJS v (v0 :: vr)).1)])
                (hfresh2 _) ((v0 :: vr).drop (flatSegJS v).length)
                (by simpa using hlen3)]
              rw [← substJS_snd v (v0 :: vr)]
              simp [substObj]
      | obj om =>
          rw [← hv]
          have hvc : isContainer v = true := by rw [hv]; rfl
          obtain ⟨s2, rest0, w0, L2, hfse, hfl⟩ :=
            flatSeg_first v h2.2.2.1 hvc
          cases vs with
          | nil =>
              rw [hfse] at hlen2
              simp at hlen2
          | cons v0 vr =>
              have hrv : reVal (flatSegJS v) (v0 :: vr)
                  = (s2 :: rest0, v0) :: reVal L2 vr := by
                rw [hfse]; rfl
              have hne2 : ∀ pv ∈ reVal L2 vr, pv.1 ≠ [] := by
                apply reVal_path_ne
                intro pv hpv
                exact flatSegJS_path_ne v hvc pv (by rw [hfse]; simp [hpv])
              rw [hrv, addAll_prefix_obj_create (reVal L2 vr) s2 rest0 v0 hne2 m k
                (alookup_eq_none m k hkm), ← hrv, hfl]
              rw [addAll_tree v h2.2.2.1 hvc (v0 :: vr) (by simpa [hfse] using hlen2)]
              dsimp only
              rw [upsert_of_not_mem m k _ hkm]
              rw [addAll_obj fs2 h2.2.2.2 (m ++ [(k, (substJS v (v0 :: vr)).1)])
                (hfresh2 _) ((v0 :: vr).drop (flatSegJS v).length)
                (by simpa using hlen3)]
              rw [← substJS_snd v (v0 :: vr)]
              simp [substObj]
      | num n => simp [hv, canonJS] at h2
      | boolv b => simp [hv, canonJS] at h2
      | nullv => simp [hv, canonJS] at h2
termination_by structural x => x

theorem addAll_arr : ∀ l, canonArr l = true →
    ∀ (l0 : List JS) (vs : List String),
    (flatSegArr l l0.length).length ≤ vs.length →
    addAll (reVal (flatSegArr l l0.length) vs) (.arr l0)
      = .ok (.arr (l0 ++ (substArr l vs).1))
  | [], _ => by intro l0 vs _; simp [flatSegArr, reVal, addAll, substArr]
  | v :: rest, h => by
      intro l0 vs hlen
      have h2 := canonArr_cons v rest h
      have hfst : ∀ X : List (List Seg × String),
          List.map (fun pv => (Seg.idx l0.length :: pv.1, pv.2)) X
            = prefixSeg (Seg.idx l0.length) X :=
        fun _ => rfl
      have hlen2 : (flatSegJS v).length ≤ vs.length := by
        simp only [flatSegArr, List.length_append, List.length_map] at hlen
        omega
      have hlen3 : (flatSegArr rest (l0.length + 1)).length
          ≤ (vs.drop (flatSegJS v).length).length := by
        simp only [flatSegArr, List.length_append, List.length_map] at hlen
        simp only [List.length_drop]
        omega
      have hsplit : reVal (flatSegArr (v :: rest) l0.length) vs
          = prefixSeg (Seg.idx l0.length) (reVal (flatSegJS v) vs)
            ++ reVal (flatSegArr rest (l0.length + 1)) (vs.drop (flatSegJS v).length) := by
        simp only [flatSegArr, hfst]
        rw [reVal_append _ _ vs (by simpa [prefixSeg] using hlen2), reVal_prefixSeg]
        congr 2
        simp [prefixSeg]
      rw [hsplit, addAll_append]
      cases hv : v with
      | str s =>
          cases vs with
          | nil =>
              rw [hv] at hlen2
              simp [flatSegJS] at hlen2
          | cons v0 vr =>
              have hA : addAll (prefixSeg (Seg.idx l0.length)
                  (reVal (flatSegJS (JS.str s)) (v0 :: vr))) (.arr l0)
                  = .ok (.arr (l0 ++ [JS.str v0])) := by
                show addAll [(Seg.idx l0.length :: [], v0)] (.arr l0) = _
                simp only [addAll, setPathSeg_arr_last]
                rw [padSet_append]
              rw [hA]
              dsimp only
              have hdrop : List.drop (flatSegJS (JS.str s)).length (v0 :: vr) = vr := by
                simp [flatSegJS]
              rw [hdrop]
              have hrec := addAll_arr rest h2.2 (l0 ++ [JS.str v0]) vr
                (by
                  rw [hv] at hlen3
                  simpa [flatSegJS] using hlen3)
              rw [show (l0 ++ [JS.str v0]).length = l0.length + 1 by simp] at hrec
              rw [hrec]
              simp [substArr, substJS, flatSegJS]
      | arr al =>
          rw [← hv]
          have hvc : isContainer v = true := by rw [hv]; rfl
          obtain ⟨s2, rest0, w0, L2, hfse, hfl⟩ :=
            flatSeg_first v h2.1 hvc
          cases vs with
          | nil =>
              rw [hfse] at hlen2
              simp at hlen2
          | cons v0 vr =>
              have hrv : reVal (flatSegJS v) (v0 :: vr)
                  = (s2 :: rest0, v0) :: reVal L2 vr := by
                rw [hfse]; rfl
              have hne2 : ∀ pv ∈ reVal L2 vr, pv.1 ≠ [] := by
                apply reVal_path_ne
                intro pv hpv
                exact flatSegJS_path_ne v hvc pv (by rw [hfse]; simp [hpv])
              rw [hrv, addAll_prefix_arr_create (reVal L2 vr) s2 rest0 v0 hne2 l0,
                ← hrv, hfl]
              rw [addAll_tree v h2.1 hvc (v0 :: vr) (by simpa [hfse] using hlen2)]
              dsimp only
              have hrec := addAll_arr rest h2.2 (l0 ++ [(substJS v (v0 :: vr)).1])
                ((v0 :: vr).drop (flatSegJS v).length) (by simpa using hlen3)
              rw [show (l0 ++ [(substJS v (v0 :: vr)).1]).length = l0.length + 1
                by simp] at hrec
              rw [hrec, ← substJS_snd v (v0 :: vr)]
              simp [substArr]
      | obj om =>
          rw [← hv]
          have hvc : isContainer v = true := by rw [hv]; rfl
          obtain ⟨s2, rest0, w0, L2, hfse, hfl⟩ :=
            flatSeg_first v h2.1 hvc
          cases vs with
          | nil =>
              rw [hfse] at hlen2
              simp at hlen2
          | cons v0 vr =>
              have hrv : reVal (flatSegJS v) (v0 :: vr)
                  = (s2 :: rest0, v0) :: reVal L2 vr := by
                rw [hfse]; rfl
              have hne2 : ∀ pv ∈ reVal L2 vr, pv.1 ≠ [] := by
                apply reVal_path_ne
                intro pv hpv
                exact flatSegJS_path_ne v hvc pv (by rw [hfse]; simp [hpv])
              rw [hrv, addAll_prefix_arr_create (reVal L2 vr) s2 rest0 v0 hne2 l0,
                ← hrv, hfl]
              rw [addAll_tree v h2.1 hvc (v0 :: vr) (by simpa [hfse] using hlen2)]
              dsimp only
              have hrec := addAll_arr rest h2.2 (l0 ++ [(substJS v (v0 :: vr)).1])
                ((v0 :: vr).drop (flatSegJS v).length) (by simpa using hlen3)
              rw [show (l0 ++ [(substJS v (v0 :: vr)).1]).length = l0.length + 1
                by simp] at hrec
              rw [hrec, ← substJS_snd v (v0 :: vr)]
              simp [substArr]
      | num n => simp [hv, canonArr, canonJS] at h2
      | boolv b => simp [hv, canonArr, canonJS] at h2
      | nullv => simp [hv, canonArr, canonJS] at h2
termination_by structural x => x

end

theorem encodePath_snoc (bs : List Seg) (s : Seg) :
    encodePath (bs ++ [s]) = stepPath (encodePath bs) s := by
  simp [encodePath, List.foldl_append]

theorem validSegs_append (a b : List Seg) :
    validSegs (a ++ b) = (validSegs a && validSegs b) := by
  simp [validSegs, List.all_append]

theorem append_cons_assoc {α : Type} (l : List α) (a : α) (r : List α) :
    (l ++ [a]) ++ r = l ++ (a :: r) := by
  simp


mutual

/-- Bridge: on a canonical container, the string-keyed `flatten` produces
exactly the `encodePath` images of the segment-level entries, appended to the
threaded accumulator, provided the produced keys are fresh and mutually
distinct (then every JavaScript `out[p] = v` run by the script is an
append). -/
theorem flattenJS_bridge : ∀ t, canonJS t = true → isContainer t = true →
    ∀ bs : List Seg, validSegs bs = true → ∀ out : List (String × String),
    (∀ pv ∈ flatSegJS t, encodePath (bs ++ pv.1) ∉ keysOf out) →
    (((flatSegJS t).map (fun pv => encodePath (bs ++ pv.1))).Nodup) →
    flattenJS t (encodePath bs) out
      = out ++ (flatSegJS t).map (fun pv => (encodePath (bs ++ pv.1), pv.2))
  | .arr l, hc, _, bs, hbs, out, hfr, hnd => by
      have h2 := canonJS_arr l hc
      simpa only [flattenJS, flatSegJS] using
        flattenArr_bridge l h2.2 bs hbs 0 out (by simpa [flatSegJS] using hfr)
          (by simpa [flatSegJS] using hnd)
  | .obj m, hc, _, bs, hbs, out, hfr, hnd => by
      have h2 := canonJS_obj m hc
      simpa only [flattenJS, flatSegJS] using
        flattenObj_bridge m h2.2 bs hbs out (by simpa [flatSegJS] using hfr)
          (by simpa [flatSegJS] using hnd)
  | .str s, _, hcont, _, _, _, _, _ => by simp [isContainer] at hcont
  | .num n, _, hcont, _, _, _, _, _ => by simp [isContainer] at hcont
  | .boolv b, _, hcont, _, _, _, _, _ => by simp [isContainer] at hcont
  | .nullv, _, hcont, _, _, _, _, _ => by simp [isContainer] at hcont
termination_by x => sizeOf x

theorem flattenArr_bridge : ∀ l, canonArr l = true →
    ∀ bs : List Seg, validSegs bs = true → ∀ (i : Nat) (out : List (String × String)),
    (∀ pv ∈ flatSegArr l i, encodePath (bs ++ pv.1) ∉ keysOf out) →
    (((flatSegArr l i).map (fun pv => encodePath (bs ++ pv.1))).Nodup) →
    flattenArr l (encodePath bs) i out
      = out ++ (flatSegArr l i).map (fun pv => (encodePath (bs ++ pv.1), pv.2))
  | [], _ => by intro bs _ i out _ _; simp [flattenArr, flatSegArr]
  | v :: rest, h => by
      intro bs hbs i out hfr hnd
      have h2 := canonArr_cons v rest h
      have hbs2 : validSegs (bs ++ [Seg.idx i]) = true := by
        rw [validSegs_append, hbs]
        simp [validSegs, validSeg]
      have hsplitA : flatSegArr (v :: rest) i
          = (flatSegJS v).map (fun q => (Seg.idx i :: q.1, q.2))
            ++ flatSegArr rest (i + 1) := rfl
      have hG1pair : (flatSegJS v).map
            ((fun pv => (encodePath (bs ++ pv.1), pv.2))
              ∘ (fun q => (Seg.idx i :: q.1, q.2)))
          = (flatSegJS v).map
            (fun q => (encodePath ((bs ++ [Seg.idx i]) ++ q.1), q.2)) := by
        apply List.map_congr_left
        intro q _
        show (encodePath (bs ++ (Seg.idx i :: q.1)), q.2) = _
        rw [append_cons_assoc]
      have hG1enc : (flatSegJS v).map
            ((fun pv => encodePath (bs ++ pv.1)) ∘ (fun q => (Seg.idx i :: q.1, q.2)))
          = (flatSegJS v).map
            (fun q => encodePath ((bs ++ [Seg.idx i]) ++ q.1)) := by
        apply List.map_congr_left
        intro q _
        show encodePath (bs ++ (Seg.idx i :: q.1)) = _
        rw [append_cons_assoc]
      have hndparts := hnd
      rw [hsplitA, List.map_append, List.map_map, hG1enc, List.nodup_append] at hndparts
      have hfrG1 : ∀ q ∈ flatSegJS v,
          encodePath ((bs ++ [Seg.idx i]) ++ q.1) ∉ keysOf out := by
        intro q hq
        have hthis := hfr (Seg.idx i :: q.1, q.2) (by
          rw [hsplitA]
          exact List.mem_append_left _ (List.mem_map_of_mem _ hq))
        rw [append_cons_assoc]
        exact hthis
      have hfrR : ∀ pv ∈ flatSegArr rest (i + 1),
          encodePath (bs ++ pv.1) ∉ keysOf out := by
        intro pv hpv
        exact hfr pv (by rw [hsplitA]; exact List.mem_append_right _ hpv)
      cases hv : v with
      | str s =>
          rw [show flattenArr (JS.str s :: rest) (encodePath bs) i out
              = flattenArr rest (encodePath bs) (i + 1)
                  (upsert out (stepPath (encodePath bs) (Seg.idx i)) s) from rfl,
            ← encodePath_snoc]
          have hout2 : upsert out (encodePath (bs ++ [Seg.idx i])) s
              = out ++ [(encodePath (bs ++ [Seg.idx i]), s)] := by
            apply upsert_of_not_mem
            have hthis := hfrG1 ([], s) (by rw [hv]; simp [flatSegJS])
            simpa using hthis
          rw [hout2]
          have hfr2 : ∀ pv ∈ flatSegArr rest (i + 1), encodePath (bs ++ pv.1)
              ∉ keysOf (out ++ [(encodePath (bs ++ [Seg.idx i]), s)]) := by
            intro pv hpv
            simp only [keysOf, List.map_append, List.mem_append, List.map_cons,
              List.map_nil]
            push_neg
            refine ⟨by simpa [keysOf] using hfrR pv hpv, ?_⟩
            simp only [List.mem_cons, List.not_mem_nil, or_false]
            intro hcon
            have hd := hndparts.2.2
            rw [hv] at hd
            exact hd (a := encodePath (bs ++ pv.1))
              (by simp [flatSegJS]; rw [hcon])
              (List.mem_map_of_mem _ hpv)
          rw [flattenArr_bridge rest h2.2 bs hbs (i + 1)
            (out ++ [(encodePath (bs ++ [Seg.idx i]), s)]) hfr2 hndparts.2.1]
          rw [show flatSegArr (JS.str s :: rest) i
            = ([Seg.idx i], s) :: flatSegArr rest (i + 1) from rfl]
          simp
      | arr al =>
          rw [show flattenArr (JS.arr al :: rest) (encodePath bs) i out
              = flattenArr rest (encodePath bs) (i + 1)
                  (flattenJS (JS.arr al) (stepPath (encodePath bs) (Seg.idx i)) out)
              from rfl]
          rw [← hv, ← encodePath_snoc]
          have hvc : isContainer v = true := by rw [hv]; rfl
          rw [flattenJS_bridge v h2.1 hvc (bs ++ [Seg.idx i]) hbs2 out hfrG1 hndparts.1]
          have hfr2 : ∀ pv ∈ flatSegArr rest (i + 1), encodePath (bs ++ pv.1)
              ∉ keysOf (out ++ (flatSegJS v).map
                (fun q => (encodePath ((bs ++ [Seg.idx i]) ++ q.1), q.2))) := by
            intro pv hpv
            simp only [keysOf, List.map_append, List.mem_append, List.map_map]
            push_neg
            refine ⟨by simpa [keysOf] using hfrR pv hpv, ?_⟩
            intro hcon
            have hd := hndparts.2.2
            refine hd ?_ (List.mem_map_of_mem _ hpv)
            simpa [Function.comp] using hcon
          rw [flattenArr_bridge rest h2.2 bs hbs (i + 1) _ hfr2 hndparts.2.1]
          rw [hsplitA, List.map_append, List.map_map, hG1pair, List.append_assoc]
      | obj om =>
          rw [show flattenArr (JS.obj om :: rest) (encodePath bs) i out
              = flattenArr rest (encodePath bs) (i + 1)
                  (flattenJS (JS.obj om) (stepPath (encodePath bs) (Seg.idx i)) out)
              from rfl]
          rw [← hv, ← encodePath_snoc]
          have hvc : isContainer v = true := by rw [hv]; rfl
          rw [flattenJS_bridge v h2.1 hvc (bs ++ [Seg.idx i]) hbs2 out hfrG1 hndparts.1]
          have hfr2 : ∀ pv ∈ flatSegArr rest (i + 1), encodePath (bs ++ pv.1)
              ∉ keysOf (out ++ (flatSegJS v).map
                (fun q => (encodePath ((bs ++ [Seg.idx i]) ++ q.1), q.2))) := by
            intro pv hpv
            simp only [keysOf, List.map_append, List.mem_append, List.map_map]
            push_neg
            refine ⟨by simpa [keysOf] using hfrR pv hpv, ?_⟩
            intro hcon
            have hd := hndparts.2.2
            refine hd ?_ (List.mem_map_of_mem _ hpv)
            simpa [Function.comp] using hcon
          rw [flattenArr_bridge rest h2.2 bs hbs (i + 1) _ hfr2 hndparts.2.1]
          rw [hsplitA, List.map_append, List.map_map, hG1pair, List.append_assoc]
      | num n => simp [hv, canonJS] at h2
      | boolv b => simp [hv, canonJS] at h2
      | nullv => simp [hv, canonJS] at h2
termination_by x => sizeOf x

theorem flattenObj_bridge : ∀ fs, canonObjFields fs = true →
    ∀ bs : List Seg, validSegs bs = true → ∀ out : List (String × String),
    (∀ pv ∈ flatSegObj fs, encodePath (bs ++ pv.1) ∉ keysOf out) →
    (((flatSegObj fs).map (fun pv => encodePath (bs ++ pv.1))).Nodup) →
    flattenObj fs (encodePath bs) out
      = out ++ (flatSegObj fs).map (fun pv => (encodePath (bs ++ pv.1), pv.2))
  | [], _ => by intro bs _ out _ _; simp [flattenObj, flatSegObj]
  | (k, v) :: fs2, h => by
      intro bs hbs out hfr hnd
      have h2 := canonObjFields_cons k v fs2 h
      have hbs2 : validSegs (bs ++ [Seg.key k]) = true := by
        rw [validSegs_append, hbs]
        simp [validSegs, validSeg, h2.1]
      have hsplitO : flatSegObj ((k, v) :: fs2)
          = (flatSegJS v).map (fun q => (Seg.key k :: q.1, q.2)) ++ flatSegObj fs2 := rfl
      have hG1pair : (flatSegJS v).map
            ((fun pv => (encodePath (bs ++ pv.1), pv.2))
              ∘ (fun q => (Seg.key k :: q.1, q.2)))
          = (flatSegJS v).map
            (fun q => (encodePath ((bs ++ [Seg.key k]) ++ q.1), q.2)) := by
        apply List.map_congr_left
        intro q _
        show (encodePath (bs ++ (Seg.key k :: q.1)), q.2) = _
        rw [append_cons_assoc]
      have hG1enc : (flatSegJS v).map
            ((fun pv => encodePath (bs ++ pv.1)) ∘ (fun q => (Seg.key k :: q.1, q.2)))
          = (flatSegJS v).map
            (fun q => encodePath ((bs ++ [Seg.key k]) ++ q.1)) := by
        apply List.map_congr_left
        intro q _
        show encodePath (bs ++ (Seg.key k :: q.1)) = _
        rw [append_cons_assoc]
      have hndparts := hnd
      rw [hsplitO, List.map_append, List.map_map, hG1enc, List.nodup_append] at hndparts
      have hfrG1 : ∀ q ∈ flatSegJS v,
          encodePath ((bs ++ [Seg.key k]) ++ q.1) ∉ keysOf out := by
        intro q hq
        have hthis := hfr (Seg.key k :: q.1, q.2) (by
          rw [hsplitO]
          exact List.mem_append_left _ (List.mem_map_of_mem _ hq))
        rw [append_cons_assoc]
        exact hthis
      have hfrR : ∀ pv ∈ flatSegObj fs2,
          encodePath (bs ++ pv.1) ∉ keysOf out := by
        intro pv hpv
        exact hfr pv (by rw [hsplitO]; exact List.mem_append_right _ hpv)
      cases hv : v with
      | str s =>
          rw [show flattenObj ((k, JS.str s) :: fs2) (encodePath bs) out
              = flattenObj fs2 (encodePath bs)
                  (upsert out (stepPath (encodePath bs) (Seg.key k)) s) from rfl,
            ← encodePath_snoc]
          have hout2 : upsert out (encodePath (bs ++ [Seg.key k])) s
              = out ++ [(encodePath (bs ++ [Seg.key k]), s)] := by
            apply upsert_of_not_mem
            have hthis := hfrG1 ([], s) (by rw [hv]; simp [flatSegJS])
            simpa using hthis
          rw [hout2]
          have hfr2 : ∀ pv ∈ flatSegObj fs2, encodePath (bs ++ pv.1)
              ∉ keysOf (out ++ [(encodePath (bs ++ [Seg.key k]), s)]) := by
            intro pv hpv
            simp only [keysOf, List.map_append, List.mem_append, List.map_cons,
              List.map_nil]
            push_neg
            refine ⟨by simpa [keysOf] using hfrR pv hpv, ?_⟩
            simp only [List.mem_cons, List.not_mem_nil, or_false]
            intro hcon
            have hd := hndparts.2.2
            rw [hv] at hd
            exact hd (a := encodePath (bs ++ pv.1))
              (by simp [flatSegJS]; rw [hcon])
              (List.mem_map_of_mem _ hpv)
          rw [flattenObj_bridge fs2 h2.2.2.2 bs hbs
            (out ++ [(encodePath (bs ++ [Seg.key k]), s)]) hfr2 hndparts.2.1]
          rw [show flatSegObj ((k, JS.str s) :: fs2)
            = ([Seg.key k], s) :: flatSegObj fs2 from rfl]
          simp
      | arr al =>
          rw [show flattenObj ((k, JS.arr al) :: fs2) (encodePath bs) out
              = flattenObj fs2 (encodePath bs)
                  (flattenJS (JS.arr al) (stepPath (encodePath bs) (Seg.key k)) out)
              from rfl]
          rw [← hv, ← encodePath_snoc]
          have hvc : isContainer v = true := by rw [hv]; rfl
          rw [flattenJS_bridge v h2.2.2.1 hvc (bs ++ [Seg.key k]) hbs2 out hfrG1
            hndparts.1]
          have hfr2 : ∀ pv ∈ flatSegObj fs2, encodePath (bs ++ pv.1)
              ∉ keysOf (out ++ (flatSegJS v).map
                (fun q => (encodePath ((bs ++ [Seg.key k]) ++ q.1), q.2))) := by
            intro pv hpv
            simp only [keysOf, List.map_append, List.mem_append, List.map_map]
            push_neg
            refine ⟨by simpa [keysOf] using hfrR pv hpv, ?_⟩
            intro hcon
            have hd := hndparts.2.2
            refine hd ?_ (List.mem_map_of_mem _ hpv)
            simpa [Function.comp] using hcon
          rw [flattenObj_bridge fs2 h2.2.2.2 bs hbs _ hfr2 hndparts.2.1]
          rw [hsplitO, List.map_append, List.map_map, hG1pair, List.append_assoc]
      | obj om =>
          rw [show flattenObj ((k, JS.obj om) :: fs2) (encodePath bs) out
              = flattenObj fs2 (encodePath bs)
                  (flattenJS (JS.obj om) (stepPath (encodePath bs) (Seg.key k)) out)
              from rfl]
          rw [← hv, ← encodePath_snoc]
          have hvc : isContainer v = true := by rw [hv]; rfl
          rw [flattenJS_bridge v h2.2.2.1 hvc (bs ++ [Seg.key k]) hbs2 out hfrG1
            hndparts.1]
          have hfr2 : ∀ pv ∈ flatSegObj fs2, encodePath (bs ++ pv.1)
              ∉ keysOf (out ++ (flatSegJS v).map
                (fun q => (encodePath ((bs ++ [Seg.key k]) ++ q.1), q.2))) := by
            intro pv hpv
            simp only [keysOf, List.map_append, List.mem_append, List.map_map]
            push_neg
            refine ⟨by simpa [keysOf] using hfrR pv hpv, ?_⟩
            intro hcon
            have hd := hndparts.2.2
            refine hd ?_ (List.mem_map_of_mem _ hpv)
            simpa [Function.comp] using hcon
          rw [flattenObj_bridge fs2 h2.2.2.2 bs hbs _ hfr2 hndparts.2.1]
          rw [hsplitO, List.map_append, List.map_map, hG1pair, List.append_assoc]
      | num n => simp [hv, canonJS] at h2
      | boolv b => simp [hv, canonJS] at h2
      | nullv => simp [hv, canonJS] at h2
termination_by x => sizeOf x

end

def isObjJS : JS → Bool
  | .obj _ => true
  | _ => false

theorem flatSeg_enc_nodup (t : JS) (hc : canonJS t = true) :
    ((flatSegJS t).map (fun pv => encodePath pv.1)).Nodup := by
  have hnd := flatSegJS_nodup t hc
  have hcomp : (flatSegJS t).map (fun pv => encodePath pv.1)
      = ((flatSegJS t).map Prod.fst).map encodePath := by
    simp [List.map_map, Function.comp]
  rw [hcomp]
  apply List.Nodup.map_on ?_ hnd
  intro x hx y hy hxy
  have hvx : validSegs x = true := by
    simp only [List.mem_map] at hx
    obtain ⟨pv, hpv, rfl⟩ := hx
    exact flatSegJS_valid t hc pv hpv
  have hvy : validSegs y = true := by
    simp only [List.mem_map] at hy
    obtain ⟨pv, hpv, rfl⟩ := hy
    exact flatSegJS_valid t hc pv hpv
  exact encodePath_inj x y hvx hvy hxy

/-- `flatten(src)` on a canonical container produces exactly the encoded
segment-level entries, in depth-first order. -/
theorem flattenTop_enc (t : JS) (hc : canonJS t = true) (hcont : isContainer t = true) :
    flattenTop t = (flatSegJS t).map (fun pv => (encodePath pv.1, pv.2)) := by
  have hnd : ((flatSegJS t).map (fun pv => encodePath ([] ++ pv.1))).Nodup := by
    simpa using flatSeg_enc_nodup t hc
  have hb := flattenJS_bridge t hc hcont [] rfl [] (by simp [keysOf]) hnd
  show flattenJS t "" [] = _
  rw [show ("" : String) = encodePath [] from rfl, hb]
  simp

theorem inflateF_encoded (L : List (List Seg × String))
    (hval : ∀ pv ∈ L, validSegs pv.1 = true) :
    inflateF (L.map (fun pv => (encodePath pv.1, pv.2))) = addAll L (JS.obj []) := by
  show inflateGo _ _ = _
  rw [inflateGo_eq_addAll]
  congr 1
  rw [List.map_map]
  have hcongr : ∀ pv ∈ L,
      ((fun kv : String × String => (splitPath kv.1, kv.2))
        ∘ (fun pv : List Seg × String => (encodePath pv.1, pv.2))) pv = id pv := by
    intro pv hpv
    simp [Function.comp, splitPath_encodePath pv.1 (hval pv hpv)]
  rw [List.map_congr_left hcongr, List.map_id]

theorem inflate_flattenTop (t : JS) (hc : canonJS t = true) (ho : isObjJS t = true) :
    inflateF (flattenTop t) = .ok t := by
  have hcont : isContainer t = true := by
    cases t <;> simp_all [isObjJS, isContainer]
  have hfl : freshLike t = JS.obj [] := by
    cases t <;> simp_all [isObjJS, freshLike]
  rw [flattenTop_enc t hc hcont, inflateF_encoded _ (flatSegJS_valid t hc)]
  have hmain := addAll_tree t hc hcont ((flatSegJS t).map Prod.snd) (by simp)
  rw [reVal_self, hfl] at hmain
  rw [hmain]
  have hid := substJS_id t []
  rw [List.append_nil] at hid
  rw [hid]

/-! ## The main per-leaf loop (lines 111, 127-137)

`clean` strips leading/trailing quote runs when STRIP_QUOTES is set; the loop
reuses the previous output value when the cached source text matches the
cleaned current text and the previous value is a non-blank string, and
otherwise calls the gateway and records the cleaned text in the cache.
`trimJS` models `String.prototype.trim` on the whitespace characters relevant
here (space, tab, line feed, carriage return, vertical tab, form feed);
`runLoop` models one pass over the flattened source, collecting the output
mapping, the final cache object and the list of gateway invocations. -/

def isWSChar (c : Char) : Bool :=
  c = ' ' || c = '\t' || c = '\n' || c = '\r' || c.toNat = 11 || c.toNat = 12

def trimJS (s : String) : String :=
  String.mk (((s.data.dropWhile isWSChar).reverse.dropWhile isWSChar).reverse)

def isQuoteChar (c : Char) : Bool := c.toNat = 39 || c = '"'

/-- `clean`: `s.replace(/^['"]+|['"]+$/g, '')` removes the maximal leading and
trailing runs of single/double quotes. -/
def cleanCfg (strip : Bool) (s : String) : String :=
  if strip then
    String.mk (((s.data.dropWhile isQuoteChar).reverse.dropWhile isQuoteChar).reverse)
  else s

structure RunOut where
  out : List (String × String)
  cache : List (String × String)
  calls : List (String × String)
deriving Repr, DecidableEq

/-- The reuse condition of line 132:
`lastEn === en && typeof prev === 'string' && prev.trim()`. -/
def reuseOk (cache prevT : List (String × String)) (p en : String) : Bool :=
  match alookup cache p, alookup prevT p with
  | some lastEn, some prev => lastEn == en && !(trimJS prev == "")
  | _, _ => false

def runLoop (strip : Bool) (g : String → String) (prevT : List (String × String)) :
    List (String × String) → List (String × String) → RunOut
  | [], cache => ⟨[], cache, []⟩
  | (p, vRaw) :: rest, cache =>
      let en := cleanCfg strip vRaw
      if reuseOk cache prevT p en then
        let r := runLoop strip g prevT rest cache
        ⟨(p, (alookup prevT p).getD "") :: r.out, r.cache, r.calls⟩
      else
        let r := runLoop strip g prevT rest (upsert cache p en)
        ⟨(p, g en) :: r.out, r.cache, (p, en) :: r.calls⟩

theorem reuseOk_iff (cache prevT : List (String × String)) (p en : String) :
    reuseOk cache prevT p en = true
      ↔ (alookup cache p = some en ∧ ∃ s, alookup prevT p = some s ∧ trimJS s ≠ "") := by
  unfold reuseOk
  cases hc : alookup cache p with
  | none => simp
  | some lastEn =>
      cases hp : alookup prevT p with
      | none => simp
      | some prev =>
          constructor
          · intro h
            simp only [Bool.and_eq_true, beq_iff_eq, Bool.not_eq_true',
              beq_eq_false_iff_ne] at h
            exact ⟨by rw [h.1], prev, rfl, h.2⟩
          · intro ⟨h1, s, h2, h3⟩
            injection h1 with h1
            injection h2 with h2
            subst h2
            simp [h1, h3]

theorem runLoop_not_mem (strip : Bool) (g : String → String)
    (prevT : List (String × String)) :
    ∀ (flat : List (String × String)) (cache : List (String × String)) (p : String),
    p ∉ keysOf flat →
    p ∉ (runLoop strip g prevT flat cache).calls.map Prod.fst ∧
    alookup (runLoop strip g prevT flat cache).cache p = alookup cache p ∧
    alookup (runLoop strip g prevT flat cache).out p = none := by
  intro flat
  induction flat with
  | nil => intro cache p _; simp [runLoop, alookup]
  | cons qv rest ih =>
      intro cache p hp
      obtain ⟨q, w⟩ := qv
      have hqp : q ≠ p := by
        intro h
        exact hp (by simp [keysOf, h])
      have hp2 : p ∉ keysOf rest := by
        intro h
        exact hp (by simp [keysOf] at h ⊢; exact Or.inr h)
      show _ ∧ _ ∧ _
      by_cases hr : reuseOk cache prevT q (cleanCfg strip w) = true
      · have := ih cache p hp2
        simp only [runLoop, hr, if_pos]
        exact ⟨this.1, this.2.1, by simp [alookup, hqp, this.2.2]⟩
      · have := ih (upsert cache q (cleanCfg strip w)) p hp2
        simp only [runLoop, hr, if_neg, Bool.false_eq_true, not_false_iff]
        refine ⟨?_, ?_, ?_⟩
        · simp only [List.map_cons, List.mem_cons]
          push_neg
          exact ⟨Ne.symm hqp, this.1⟩
        · rw [this.2.1, alookup_upsert_ne cache q p (cleanCfg strip w) hqp]
        · simp [alookup, hqp, this.2.2]

theorem reuseOk_cache_congr (c1 c2 prevT : List (String × String)) (p en : String)
    (h : alookup c1 p = alookup c2 p) :
    reuseOk c1 prevT p en = reuseOk c2 prevT p en := by
  unfold reuseOk
  rw [h]

theorem runLoop_reuse (strip : Bool) (g : String → String)
    (prevT : List (String × String)) :
    ∀ (flat : List (String × String)) (cache : List (String × String))
      (p vRaw : String),
    (keysOf flat).Nodup →
    alookup flat p = some vRaw →
    reuseOk cache prevT p (cleanCfg strip vRaw) = true →
    alookup (runLoop strip g prevT flat cache).out p = alookup prevT p ∧
    p ∉ (runLoop strip g prevT flat cache).calls.map Prod.fst ∧
    alookup (runLoop strip g prevT flat cache).cache p = alookup cache p := by
  intro flat
  induction flat with
  | nil => intro cache p vRaw _ hv; simp [alookup] at hv
  | cons qv rest ih =>
      intro cache p vRaw hnd hv hr
      obtain ⟨q, w⟩ := qv
      have hnd1 : q ∉ keysOf rest := by
        simp only [keysOf, List.map_cons, List.nodup_cons] at hnd
        exact hnd.1
      have hnd2 : (keysOf rest).Nodup := by
        simp only [keysOf, List.map_cons, List.nodup_cons] at hnd
        exact hnd.2
      by_cases hq : q = p
      · subst hq
        have hw : w = vRaw := by simp [alookup] at hv; exact hv
        subst hw
        obtain ⟨hc, s, hs, hsne⟩ := (reuseOk_iff cache prevT q (cleanCfg strip w)).1 hr
        have hfr := runLoop_not_mem strip g prevT rest cache q hnd1
        simp only [runLoop, hr, if_pos]
        refine ⟨?_, hfr.1, hfr.2.1⟩
        simp [alookup, hs]
      · have hv2 : alookup rest p = some vRaw := by
          simp only [alookup, if_neg hq] at hv
          exact hv
        by_cases hrq : reuseOk cache prevT q (cleanCfg strip w) = true
        · have := ih cache p vRaw hnd2 hv2 hr
          simp only [runLoop, hrq, if_pos]
          exact ⟨by simp [alookup, hq, this.1], this.2.1, this.2.2⟩
        · have hcongr : alookup (upsert cache q (cleanCfg strip w)) p = alookup cache p :=
            alookup_upsert_ne cache q p (cleanCfg strip w) hq
          have hr2 : reuseOk (upsert cache q (cleanCfg strip w)) prevT p
              (cleanCfg strip vRaw) = true := by
            rw [reuseOk_cache_congr _ cache prevT p _ hcongr]; exact hr
          have := ih (upsert cache q (cleanCfg strip w)) p vRaw hnd2 hv2 hr2
          simp only [runLoop, hrq, if_neg, Bool.false_eq_true, not_false_iff]
          refine ⟨by simp [alookup, hq, this.1], ?_, by rw [this.2.2, hcongr]⟩
          simp only [List.map_cons, List.mem_cons]
          push_neg
          exact ⟨Ne.symm hq, this.2.1⟩

theorem runLoop_miss (strip : Bool) (g : String → String)
    (prevT : List (String × String)) :
    ∀ (flat : List (String × String)) (cache : List (String × String))
      (p vRaw : String),
    (keysOf flat).Nodup →
    alookup flat p = some vRaw →
    reuseOk cache prevT p (cleanCfg strip vRaw) = false →
    alookup (runLoop strip g prevT flat cache).out p = some (g (cleanCfg strip vRaw)) ∧
    (runLoop strip g prevT flat cache).calls.filter (fun q => q.1 == p)
      = [(p, cleanCfg strip vRaw)] ∧
    alookup (runLoop strip g prevT flat cache).cache p = some (cleanCfg strip vRaw) := by
  intro flat
  induction flat with
  | nil => intro cache p vRaw _ hv; simp [alookup] at hv
  | cons qv rest ih =>
      intro cache p vRaw hnd hv hr
      obtain ⟨q, w⟩ := qv
      have hnd1 : q ∉ keysOf rest := by
        simp only [keysOf, List.map_cons, List.nodup_cons] at hnd
        exact hnd.1
      have hnd2 : (keysOf rest).Nodup := by
        simp only [keysOf, List.map_cons, List.nodup_cons] at hnd
        exact hnd.2
      by_cases hq : q = p
      · subst hq
        have hw : w = vRaw := by simp [alookup] at hv; exact hv
        subst hw
        have hfr := runLoop_not_mem strip g prevT rest
          (upsert cache q (cleanCfg strip w)) q hnd1
        simp only [runLoop, hr, if_neg, Bool.false_eq_true, not_false_iff]
        refine ⟨by simp [alookup], ?_, ?_⟩
        · have hnone : (runLoop strip g prevT rest
              (upsert cache q (cleanCfg strip w))).calls.filter
                (fun r => r.1 == q) = [] := by
            rw [List.filter_eq_nil_iff]
            intro a ha
            have : a.1 ∈ (runLoop strip g prevT rest
                (upsert cache q (cleanCfg strip w))).calls.map Prod.fst :=
              List.mem_map_of_mem Prod.fst ha
            have hne : a.1 ≠ q := fun h => hfr.1 (h ▸ this)
            simp [hne]
          simp [List.filter_cons, hnone]
        · rw [hfr.2.1, alookup_upsert_self]
      · have hv2 : alookup rest p = some vRaw := by
          simp only [alookup, if_neg hq] at hv
          exact hv
        by_cases hrq : reuseOk cache prevT q (cleanCfg strip w) = true
        · have := ih cache p vRaw hnd2 hv2 hr
          simp only [runLoop, hrq, if_pos]
          exact ⟨by simp [alookup, hq, this.1], this.2.1, this.2.2⟩
        · have hcongr : alookup (upsert cache q (cleanCfg strip w)) p = alookup cache p :=
            alookup_upsert_ne cache q p (cleanCfg strip w) hq
          have hr2 : reuseOk (upsert cache q (cleanCfg strip w)) prevT p
              (cleanCfg strip vRaw) = false := by
            rw [reuseOk_cache_congr _ cache prevT p _ hcongr]; exact hr
          have := ih (upsert cache q (cleanCfg strip w)) p vRaw hnd2 hv2 hr2
          simp only [runLoop, hrq, if_neg, Bool.false_eq_true, not_false_iff]
          refine ⟨by simp [alookup, hq, this.1], ?_, this.2.2⟩
          rw [List.filter_cons]
          have hne : ((q, cleanCfg strip w).1 == p) = false := by
            simp [hq]
          rw [hne]
          simp only [Bool.false_eq_true, if_neg, not_false_iff]
          exact this.2.1

theorem runLoop_out_fst (strip : Bool) (g : String → String)
    (prevT : List (String × String)) :
    ∀ (flat cache : List (String × String)),
    (runLoop strip g prevT flat cache).out.map Prod.fst = flat.map Prod.fst := by
  intro flat
  induction flat with
  | nil => intro cache; simp [runLoop]
  | cons qv rest ih =>
      intro cache
      obtain ⟨q, w⟩ := qv
      by_cases hr : reuseOk cache prevT q (cleanCfg strip w) = true
      · simp only [runLoop, hr, if_pos, List.map_cons]
        rw [ih cache]
      · simp only [runLoop, hr, if_neg, Bool.false_eq_true, not_false_iff,
          List.map_cons]
        rw [ih (upsert cache q (cleanCfg strip w))]

theorem alookup_of_mem_nodup {α : Type} :
    ∀ (m : List (String × α)) (p : String) (v : α),
    (keysOf m).Nodup → (p, v) ∈ m → alookup m p = some v := by
  intro m
  induction m with
  | nil => intro p v _ hm; simp at hm
  | cons qv rest ih =>
      intro p v hnd hm
      obtain ⟨q, w⟩ := qv
      simp only [keysOf, List.map_cons, List.nodup_cons] at hnd
      rcases List.mem_cons.mp hm with h | h
      · injection h with h1 h2
        subst h1; subst h2
        simp [alookup]
      · have hne : q ≠ p := by
          intro hq
          subst hq
          exact hnd.1 (List.mem_map_of_mem Prod.fst h)
        simp only [alookup, if_neg hne]
        exact ih p v hnd.2 h

theorem pair_ext {α β : Type} :
    ∀ (M N : List (α × β)),
    M.map Prod.fst = N.map Prod.fst → M.map Prod.snd = N.map Prod.snd → M = N := by
  intro M
  induction M with
  | nil => intro N h1 _; cases N with
      | nil => rfl
      | cons _ _ => simp at h1
  | cons mv M2 ih =>
      intro N h1 h2
      cases N with
      | nil => simp at h1
      | cons nv N2 =>
          simp only [List.map_cons, List.cons.injEq] at h1 h2
          have : mv = nv := Prod.ext h1.1 h2.1
          rw [this, ih N2 h1.2 h2.2]

theorem reVal_fst_list (L : List (List Seg × String)) :
    ∀ vs : List String, L.length ≤ vs.length →
    (reVal L vs).map Prod.fst = L.map Prod.fst := by
  induction L with
  | nil => intro vs _; simp [reVal]
  | cons pv L2 ih =>
      intro vs hlen
      cases vs with
      | nil => simp at hlen
      | cons v vr =>
          simp only [reVal, List.zipWith, List.map_cons, List.cons.injEq]
          exact ⟨trivial, ih vr (by simpa using hlen)⟩

theorem reVal_snd_list (L : List (List Seg × String)) :
    ∀ vs : List String, vs.length ≤ L.length →
    (reVal L vs).map Prod.snd = vs := by
  induction L with
  | nil => intro vs hlen
           cases vs with
           | nil => simp [reVal]
           | cons _ _ => simp at hlen
  | cons pv L2 ih =>
      intro vs hlen
      cases vs with
      | nil => simp [reVal]
      | cons v vr =>
          simp only [reVal, List.zipWith, List.map_cons, List.cons.injEq]
          exact ⟨trivial, ih vr (by simpa using hlen)⟩

theorem runLoop_all_reuse (strip : Bool) (g : String → String)
    (prevT : List (String × String)) :
    ∀ (flat cache : List (String × String)),
    (∀ pv ∈ flat, reuseOk cache prevT pv.1 (cleanCfg strip pv.2) = true) →
    runLoop strip g prevT flat cache
      = ⟨flat.map (fun pv => (pv.1, (alookup prevT pv.1).getD "")), cache, []⟩ := by
  intro flat
  induction flat with
  | nil => intro cache _; simp [runLoop]
  | cons qv rest ih =>
      intro cache hall
      obtain ⟨q, w⟩ := qv
      have hr : reuseOk cache prevT q (cleanCfg strip w) = true :=
        hall (q, w) (by simp)
      simp only [runLoop, hr, if_pos]
      rw [ih cache (fun pv hpv => hall pv (List.mem_cons_of_mem _ hpv))]
      simp

theorem map_lookup_align {β : Type} :
    ∀ (L M : List (String × β)) (d : β),
    M.map Prod.fst = L.map Prod.fst → (L.map Prod.fst).Nodup →
    L.map (fun pv => (pv.1, (alookup M pv.1).getD d)) = M := by
  intro L
  induction L with
  | nil => intro M d h1 _
           cases M with
           | nil => rfl
           | cons _ _ => simp at h1
  | cons pv L2 ih =>
      intro M d h1 hnd
      cases M with
      | nil => simp at h1
      | cons mv M2 =>
          obtain ⟨p, a⟩ := pv
          obtain ⟨q, b⟩ := mv
          simp only [List.map_cons, List.cons.injEq] at h1
          have hq : q = p := h1.1
          subst hq
          simp only [List.map_cons, List.nodup_cons] at hnd
          simp only [List.map_cons, alookup, if_pos rfl, Option.getD_some,
            List.cons.injEq]
          refine ⟨rfl, ?_⟩
          have hcongr : ∀ pv2 ∈ L2,
              (fun pv : String × β =>
                  (pv.1, (if q = pv.1 then some b else alookup M2 pv.1).getD d)) pv2
                = (fun pv : String × β => (pv.1, (alookup M2 pv.1).getD d)) pv2 := by
            intro pv2 hpv2
            have hne : q ≠ pv2.1 := by
              intro h
              apply hnd.1
              rw [h]
              exact List.mem_map_of_mem Prod.fst hpv2
            simp [hne]
          rw [List.map_congr_left hcongr]
          exact ih M2 d h1.2 hnd.2

theorem isObj_isContainer (x : JS) (h : isObjJS x = true) : isContainer x = true := by
  cases x <;> simp_all [isObjJS, isContainer]

theorem isObj_freshLike (x : JS) (h : isObjJS x = true) : freshLike x = JS.obj [] := by
  cases x <;> simp_all [isObjJS, freshLike]

theorem flattenTop_keys_nodup (t : JS) (hc : canonJS t = true)
    (hcont : isContainer t = true) : (keysOf (flattenTop t)).Nodup := by
  rw [show keysOf (flattenTop t) = (flattenTop t).map Prod.fst from rfl,
    flattenTop_enc t hc hcont]
  simpa [List.map_map, Function.comp] using flatSeg_enc_nodup t hc

theorem runOut_len (strip : Bool) (g : String → String)
    (prevT0 cache0 : List (String × String)) (t : JS)
    (hc : canonJS t = true) (hcont : isContainer t = true) :
    ((runLoop strip g prevT0 (flattenTop t) cache0).out.map Prod.snd).length
      = (flatSegJS t).length := by
  have h1 : (runLoop strip g prevT0 (flattenTop t) cache0).out.length
      = (flattenTop t).length := by
    have := congrArg List.length (runLoop_out_fst strip g prevT0 (flattenTop t) cache0)
    simpa using this
  rw [List.length_map, h1, flattenTop_enc t hc hcont, List.length_map]

/-- The first run's output mapping has exactly the source's encoded paths as
keys, in order: it is the encoded image of the source's segment-level flat
list with the values replaced by the run's outputs. -/
theorem runOut_enc (strip : Bool) (g : String → String)
    (prevT0 cache0 : List (String × String)) (t : JS)
    (hc : canonJS t = true) (hcont : isContainer t = true) :
    (runLoop strip g prevT0 (flattenTop t) cache0).out
      = (reVal (flatSegJS t)
          ((runLoop strip g prevT0 (flattenTop t) cache0).out.map Prod.snd)).map
          (fun pv => (encodePath pv.1, pv.2)) := by
  have hlen := runOut_len strip g prevT0 cache0 t hc hcont
  have hencfst : ∀ L2 : List (List Seg × String),
      (L2.map (fun pv => (encodePath pv.1, pv.2))).map Prod.fst
        = (L2.map Prod.fst).map encodePath := by
    intro L2; simp [List.map_map, Function.comp]
  have hencsnd : ∀ L2 : List (List Seg × String),
      (L2.map (fun pv => (encodePath pv.1, pv.2))).map Prod.snd
        = L2.map Prod.snd := by
    intro L2; simp [List.map_map, Function.comp]
  apply pair_ext
  · rw [hencfst, reVal_fst_list _ _ (le_of_eq hlen.symm),
      runLoop_out_fst strip g prevT0 (flattenTop t) cache0,
      flattenTop_enc t hc hcont, hencfst]
  · rw [hencsnd, reVal_snd_list _ _ (le_of_eq hlen)]

/-- Every path of the source is classified as reusable on a second run that
starts from the first run's cache and output, provided the gateway never
returns a blank string. -/
theorem secondRun_reuseOk (strip : Bool) (g : String → String)
    (prevT0 cache0 : List (String × String)) (t : JS)
    (hc : canonJS t = true) (hcont : isContainer t = true)
    (hg : ∀ s, trimJS (g s) ≠ "")
    (p vRaw : String) (hv : alookup (flattenTop t) p = some vRaw) :
    reuseOk (runLoop strip g prevT0 (flattenTop t) cache0).cache
            (runLoop strip g prevT0 (flattenTop t) cache0).out
            p (cleanCfg strip vRaw) = true := by
  have hnd : (keysOf (flattenTop t)).Nodup := flattenTop_keys_nodup t hc hcont
  by_cases hr : reuseOk cache0 prevT0 p (cleanCfg strip vRaw) = true
  · obtain ⟨hout, _, hcache⟩ :=
      runLoop_reuse strip g prevT0 (flattenTop t) cache0 p vRaw hnd hv hr
    obtain ⟨hc0, s, hs, hsne⟩ := (reuseOk_iff cache0 prevT0 p _).1 hr
    exact (reuseOk_iff _ _ p _).2 ⟨by rw [hcache, hc0], s, by rw [hout, hs], hsne⟩
  · have hr2 : reuseOk cache0 prevT0 p (cleanCfg strip vRaw) = false := by
      simpa using hr
    obtain ⟨hout, _, hcache⟩ :=
      runLoop_miss strip g prevT0 (flattenTop t) cache0 p vRaw hnd hv hr2
    exact (reuseOk_iff _ _ p _).2 ⟨hcache, g (cleanCfg strip vRaw), hout, hg _⟩

theorem substJS_isObj (t : JS) (vs : List String) (h : isObjJS t = true) :
    isObjJS (substJS t vs).1 = true := by
  cases t <;> simp_all [isObjJS, substJS]

/-- Second-run idempotence: starting from the cache and the (re-flattened)
output tree of a first run over the same canonical object-rooted source, with
a gateway that never returns a blank string, the second run makes no gateway
calls, leaves the cache unchanged, and reproduces the first run's output
mapping exactly. -/
theorem second_run_idempotent (strip : Bool) (g : String → String)
    (prevT0 cache0 : List (String × String)) (t : JS)
    (hc : canonJS t = true) (ho : isObjJS t = true)
    (hg : ∀ s, trimJS (g s) ≠ "") :
    ∃ t2 : JS,
      inflateF (runLoop strip g prevT0 (flattenTop t) cache0).out = .ok t2 ∧
      runLoop strip g (flattenTop t2) (flattenTop t)
          (runLoop strip g prevT0 (flattenTop t) cache0).cache
        = ⟨(runLoop strip g prevT0 (flattenTop t) cache0).out,
           (runLoop strip g prevT0 (flattenTop t) cache0).cache, []⟩ := by
  have hcont : isContainer t = true := isObj_isContainer t ho
  have hlen := runOut_len strip g prevT0 cache0 t hc hcont
  have henc := runOut_enc strip g prevT0 cache0 t hc hcont
  refine ⟨(substJS t
    ((runLoop strip g prevT0 (flattenTop t) cache0).out.map Prod.snd)).1, ?_, ?_⟩
  · conv_lhs => rw [henc]
    have hval : ∀ pv ∈ reVal (flatSegJS t)
        ((runLoop strip g prevT0 (flattenTop t) cache0).out.map Prod.snd),
        validSegs pv.1 = true := by
      intro pv hpv
      obtain ⟨pv0, h0, h1⟩ := reVal_fst (flatSegJS t) _ pv hpv
      rw [h1]
      exact flatSegJS_valid t hc pv0 h0
    rw [inflateF_encoded _ hval]
    have haddAll := addAll_tree t hc hcont
      ((runLoop strip g prevT0 (flattenTop t) cache0).out.map Prod.snd)
      (le_of_eq hlen.symm)
    rw [isObj_freshLike t ho] at haddAll
    exact haddAll
  · have hc2 := substJS_canon t hc
      ((runLoop strip g prevT0 (flattenTop t) cache0).out.map Prod.snd)
    have ho2 := substJS_isObj t
      ((runLoop strip g prevT0 (flattenTop t) cache0).out.map Prod.snd) ho
    have hcont2 := isObj_isContainer _ ho2
    have hflat2 : flattenTop (substJS t
        ((runLoop strip g prevT0 (flattenTop t) cache0).out.map Prod.snd)).1
        = (runLoop strip g prevT0 (flattenTop t) cache0).out := by
      rw [flattenTop_enc _ hc2 hcont2,
        flatSeg_substJS t _ (le_of_eq hlen.symm), ← henc]
    rw [hflat2]
    have hall : ∀ pv ∈ flattenTop t,
        reuseOk (runLoop strip g prevT0 (flattenTop t) cache0).cache
          (runLoop strip g prevT0 (flattenTop t) cache0).out
          pv.1 (cleanCfg strip pv.2) = true := by
      intro pv hpv
      have hv : alookup (flattenTop t) pv.1 = some pv.2 :=
        alookup_of_mem_nodup (flattenTop t) pv.1 pv.2
          (flattenTop_keys_nodup t hc hcont) hpv
      exact secondRun_reuseOk strip g prevT0 cache0 t hc hcont hg pv.1 pv.2 hv
    rw [runLoop_all_reuse strip g _ (flattenTop t) _ hall]
    have halign : (flattenTop t).map
        (fun pv => (pv.1, (alookup
          (runLoop strip g prevT0 (flattenTop t) cache0).out pv.1).getD ""))
        = (runLoop strip g prevT0 (flattenTop t) cache0).out :=
      map_lookup_align (flattenTop t)
        (runLoop strip g prevT0 (flattenTop t) cache0).out ""
        (runLoop_out_fst strip g prevT0 (flattenTop t) cache0)
        (flattenTop_keys_nodup t hc hcont)
    rw [halign]

/-! ## Flatten (second variant, lines 170-192) and its equivalence

The second script variant builds a fresh `out` object per call and merges
child results with `Object.assign(out, flatten(v, p))`; key templates are the
same as in the first variant.  `assignAll` models `Object.assign` (JavaScript
assignment: existing keys update in place, new keys append).  The two
variants are compared through `opsJS`, the raw depth-first sequence of
`out[p] = v` assignment operations, which both variants fold over. -/

def assignAll {α : Type} (out : List (String × α)) (src : List (String × α)) :
    List (String × α) :=
  src.foldl (fun o kv => upsert o kv.1 kv.2) out

theorem keysOf_upsert_not_mem {α : Type} :
    ∀ (m : List (String × α)) (k : String) (v : α), k ∉ keysOf m →
    keysOf (upsert m k v) = keysOf m ++ [k] := by
  intro m
  induction m with
  | nil => intro k v _; simp [upsert, keysOf]
  | cons kv rest ih =>
      intro k v h
      obtain ⟨k1, v1⟩ := kv
      have h1 : k1 ≠ k := by
        intro hh
        exact h (by simp [keysOf, hh])
      have h2 : k ∉ keysOf rest := by
        intro hh
        exact h (by simp [keysOf] at hh ⊢; exact Or.inr hh)
      simp only [upsert, if_neg h1, keysOf, List.map_cons, List.cons_append,
        List.cons.injEq]
      exact ⟨trivial, ih k v h2⟩

theorem mem_keysOf_upsert_self {α : Type} (m : List (String × α)) (k : String)
    (v : α) : k ∈ keysOf (upsert m k v) := by
  by_cases h : k ∈ keysOf m
  · rw [keysOf_upsert_mem m k v h]; exact h
  · rw [keysOf_upsert_not_mem m k v h]; simp

theorem mem_keysOf_upsert_of_mem {α : Type} (m : List (String × α)) (k k2 : String)
    (v : α) (h : k ∈ keysOf m) : k ∈ keysOf (upsert m k2 v) := by
  by_cases h2 : k2 ∈ keysOf m
  · rw [keysOf_upsert_mem m k2 v h2]; exact h
  · rw [keysOf_upsert_not_mem m k2 v h2]; simp [h]

theorem keysOf_upsert_nodup {α : Type} (m : List (String × α)) (k : String)
    (v : α) (h : (keysOf m).Nodup) : (keysOf (upsert m k v)).Nodup := by
  by_cases hm : k ∈ keysOf m
  · rw [keysOf_upsert_mem m k v hm]; exact h
  · rw [keysOf_upsert_not_mem m k v hm]
    simp [List.nodup_append, h, hm]

theorem upsert_comm {α : Type} :
    ∀ (m : List (String × α)) (k k2 : String) (v w : α), k ≠ k2 → k ∈ keysOf m →
    upsert (upsert m k2 w) k v = upsert (upsert m k v) k2 w := by
  intro m
  induction m with
  | nil => intro k k2 v w _ hk; simp [keysOf] at hk
  | cons kv rest ih =>
      intro k k2 v w hne hk
      obtain ⟨k3, u⟩ := kv
      by_cases h3 : k3 = k
      · subst h3
        have h32 : k3 ≠ k2 := hne
        simp [upsert, if_neg h32, if_pos rfl]
      · by_cases h32 : k3 = k2
        · subst h32
          simp [upsert, if_neg h3, if_pos rfl, if_neg (Ne.symm (fun hh => h3 hh.symm))]
        · have hk2 : k ∈ keysOf rest := by
            have hk3 : k ∈ k3 :: keysOf rest := hk
            rcases List.mem_cons.mp hk3 with hh | hh
            · exact absurd hh.symm h3
            · exact hh
          simp only [upsert, if_neg h3, if_neg h32]
          rw [ih k k2 v w hne hk2]

theorem assign_late {α : Type} :
    ∀ (L m : List (String × α)) (k : String) (v : α),
    k ∉ keysOf L → k ∈ keysOf m →
    upsert (assignAll m L) k v = assignAll (upsert m k v) L := by
  intro L
  induction L with
  | nil => intro m k v _ _; rfl
  | cons kv L2 ih =>
      intro m k v hL hm
      obtain ⟨k2, w2⟩ := kv
      have h2 : k2 ≠ k := by
        intro hh
        exact hL (by simp [keysOf, hh])
      have hL2 : k ∉ keysOf L2 := by
        intro hh
        exact hL (by simp [keysOf] at hh ⊢; exact Or.inr hh)
      show upsert (assignAll (upsert m k2 w2) L2) k v = assignAll (upsert (upsert m k v) k2 w2) L2
      rw [ih (upsert m k2 w2) k v hL2 (mem_keysOf_upsert_of_mem m k k2 w2 hm),
        upsert_comm m k k2 v w2 (Ne.symm h2) hm]

theorem assignAll_upsert {α : Type} :
    ∀ (L : List (String × α)), (keysOf L).Nodup →
    ∀ (m : List (String × α)) (k : String) (v : α),
    assignAll m (upsert L k v) = upsert (assignAll m L) k v := by
  intro L
  induction L with
  | nil => intro _ m k v; rfl
  | cons kv L2 ih =>
      intro hnd m k v
      obtain ⟨k1, v1⟩ := kv
      simp only [keysOf, List.map_cons, List.nodup_cons] at hnd
      by_cases h1 : k1 = k
      · subst h1
        show assignAll m (upsert ((k1, v1) :: L2) k1 v) = _
        rw [show upsert ((k1, v1) :: L2) k1 v = (k1, v) :: L2 by simp [upsert]]
        show assignAll (upsert m k1 v) L2
          = upsert (assignAll (upsert m k1 v1) L2) k1 v
        rw [assign_late L2 (upsert m k1 v1) k1 v hnd.1
          (mem_keysOf_upsert_self m k1 v1)]
        show assignAll (upsert m k1 v) L2 = assignAll (upsert (upsert m k1 v1) k1 v) L2
        rw [upsert_upsert]
      · show assignAll m (upsert ((k1, v1) :: L2) k v) = _
        rw [show upsert ((k1, v1) :: L2) k v = (k1, v1) :: upsert L2 k v by
          simp [upsert, h1]]
        show assignAll (upsert m k1 v1) (upsert L2 k v)
          = upsert (assignAll (upsert m k1 v1) L2) k v
        rw [ih hnd.2 (upsert m k1 v1) k v]

theorem assignAll_keys_nodup {α : Type} :
    ∀ (ops m : List (String × α)), (keysOf m).Nodup →
    (keysOf (assignAll m ops)).Nodup := by
  intro ops
  induction ops with
  | nil => intro m h; exact h
  | cons kv rest ih =>
      intro m h
      exact ih (upsert m kv.1 kv.2) (keysOf_upsert_nodup m kv.1 kv.2 h)

theorem assignAll_append {α : Type} (m : List (String × α))
    (a b : List (String × α)) :
    assignAll m (a ++ b) = assignAll (assignAll m a) b := by
  simp [assignAll, List.foldl_append]

/-- `Object.assign` absorption: folding a raw assignment sequence into `m`
is the same as first collapsing the sequence into a fresh object and then
assigning that object's entries into `m`. -/
theorem assignAll_collapse {α : Type} (ops m : List (String × α)) :
    assignAll m ops = assignAll m (assignAll [] ops) := by
  induction ops using List.reverseRecOn with
  | nil => rfl
  | append_singleton rest op ih =>
      rw [assignAll_append m rest [op], assignAll_append [] rest [op]]
      show upsert (assignAll m rest) op.1 op.2
        = assignAll m (upsert (assignAll [] rest) op.1 op.2)
      rw [assignAll_upsert (assignAll [] rest)
        (assignAll_keys_nodup rest [] (by simp [keysOf])) m op.1 op.2, ih]

mutual

def opsJS : JS → String → List (String × String)
  | .arr l, base => opsArr l base 0
  | .obj m, base => opsObj m base
  | _, _ => []
termination_by structural x => x

def opsArr : List JS → String → Nat → List (String × String)
  | [], _, _ => []
  | v :: vs, base, i =>
      (match v with
       | .arr l => opsJS (.arr l) (stepPath base (.idx i))
       | .obj m => opsJS (.obj m) (stepPath base (.idx i))
       | .str s => [(stepPath base (.idx i), s)]
       | _ => []) ++ opsArr vs base (i + 1)
termination_by structural x => x

def opsObj : List (String × JS) → String → List (String × String)
  | [], _ => []
  | (k, v) :: fs, base =>
      (match v with
       | .arr l => opsJS (.arr l) (stepPath base (.key k))
       | .obj m => opsJS (.obj m) (stepPath base (.key k))
       | .str s => [(stepPath base (.key k), s)]
       | _ => []) ++ opsObj fs base
termination_by structural x => x

end

mutual

def flatten2JS : JS → String → List (String × String)
  | .arr l, base => flatten2Arr l base 0 []
  | .obj m, base => flatten2Obj m base []
  | _, _ => []
termination_by structural x => x

def flatten2Arr : List JS → String → Nat → List (String × String) → List (String × String)
  | [], _, _, out => out
  | v :: vs, base, i, out =>
      flatten2Arr vs base (i + 1)
        (match v with
         | .arr l => assignAll out (flatten2JS (.arr l) (stepPath base (.idx i)))
         | .obj m => assignAll out (flatten2JS (.obj m) (stepPath base (.idx i)))
         | .str s => upsert out (stepPath base (.idx i)) s
         | _ => out)
termination_by structural x => x

def flatten2Obj : List (String × JS) → String → List (String × String) → List (String × String)
  | [], _, out => out
  | (k, v) :: fs, base, out =>
      flatten2Obj fs base
        (match v with
         | .arr l => assignAll out (flatten2JS (.arr l) (stepPath base (.key k)))
         | .obj m => assignAll out (flatten2JS (.obj m) (stepPath base (.key k)))
         | .str s => upsert out (stepPath base (.key k)) s
         | _ => out)
termination_by structural x => x

end

mutual

theorem flattenJS_ops : ∀ (x : JS) (base : String) (out : List (String × String)),
    flattenJS x base out = assignAll out (opsJS x base)
  | .arr l, base, out => flattenArr_ops l base 0 out
  | .obj m, base, out => flattenObj_ops m base out
  | .str _, _, _ => rfl
  | .num _, _, _ => rfl
  | .boolv _, _, _ => rfl
  | .nullv, _, _ => rfl
termination_by x => sizeOf x

theorem flattenArr_ops : ∀ (l : List JS) (base : String) (i : Nat)
    (out : List (String × String)),
    flattenArr l base i out = assignAll out (opsArr l base i)
  | [], _, _, _ => rfl
  | .arr l2 :: vs, base, i, out => by
      show flattenArr vs base (i + 1) (flattenJS (.arr l2) (stepPath base (.idx i)) out)
        = assignAll out (opsJS (.arr l2) (stepPath base (.idx i)) ++ opsArr vs base (i + 1))
      rw [flattenJS_ops (.arr l2) (stepPath base (.idx i)) out,
        flattenArr_ops vs base (i + 1), assignAll_append]
  | .obj m2 :: vs, base, i, out => by
      show flattenArr vs base (i + 1) (flattenJS (.obj m2) (stepPath base (.idx i)) out)
        = assignAll out (opsJS (.obj m2) (stepPath base (.idx i)) ++ opsArr vs base (i + 1))
      rw [flattenJS_ops (.obj m2) (stepPath base (.idx i)) out,
        flattenArr_ops vs base (i + 1), assignAll_append]
  | .str s :: vs, base, i, out =>
      flattenArr_ops vs base (i + 1) (upsert out (stepPath base (.idx i)) s)
  | .num _ :: vs, base, i, out => flattenArr_ops vs base (i + 1) out
  | .boolv _ :: vs, base, i, out => flattenArr_ops vs base (i + 1) out
  | .nullv :: vs, base, i, out => flattenArr_ops vs base (i + 1) out
termination_by x => sizeOf x

theorem flattenObj_ops : ∀ (m : List (String × JS)) (base : String)
    (out : List (String × String)),
    flattenObj m base out = assignAll out (opsObj m base)
  | [], _, _ => rfl
  | (k, .arr l2) :: fs, base, out => by
      show flattenObj fs base (flattenJS (.arr l2) (stepPath base (.key k)) out)
        = assignAll out (opsJS (.arr l2) (stepPath base (.key k)) ++ opsObj fs base)
      rw [flattenJS_ops (.arr l2) (stepPath base (.key k)) out,
        flattenObj_ops fs base, assignAll_append]
  | (k, .obj m2) :: fs, base, out => by
      show flattenObj fs base (flattenJS (.obj m2) (stepPath base (.key k)) out)
        = assignAll out (opsJS (.obj m2) (stepPath base (.key k)) ++ opsObj fs base)
      rw [flattenJS_ops (.obj m2) (stepPath base (.key k)) out,
        flattenObj_ops fs base, assignAll_append]
  | (k, .str s) :: fs, base, out =>
      flattenObj_ops fs base (upsert out (stepPath base (.key k)) s)
  | (_, .num _) :: fs, base, out => flattenObj_ops fs base out
  | (_, .boolv _) :: fs, base, out => flattenObj_ops fs base out
  | (_, .nullv) :: fs, base, out => flattenObj_ops fs base out
termination_by x => sizeOf x

end

mutual

theorem flatten2JS_ops : ∀ (x : JS) (base : String),
    flatten2JS x base = assignAll [] (opsJS x base)
  | .arr l, base => flatten2Arr_ops l base 0 []
  | .obj m, base => flatten2Obj_ops m base []
  | .str _, _ => rfl
  | .num _, _ => rfl
  | .boolv _, _ => rfl
  | .nullv, _ => rfl
termination_by x => sizeOf x

theorem flatten2Arr_ops : ∀ (l : List JS) (base : String) (i : Nat)
    (out : List (String × String)),
    flatten2Arr l base i out = assignAll out (opsArr l base i)
  | [], _, _, _ => rfl
  | .arr l2 :: vs, base, i, out => by
      show flatten2Arr vs base (i + 1)
          (assignAll out (flatten2JS (.arr l2) (stepPath base (.idx i))))
        = assignAll out (opsJS (.arr l2) (stepPath base (.idx i)) ++ opsArr vs base (i + 1))
      rw [flatten2JS_ops (.arr l2) (stepPath base (.idx i)),
        ← assignAll_collapse (opsJS (.arr l2) (stepPath base (.idx i))) out,
        flatten2Arr_ops vs base (i + 1), assignAll_append]
  | .obj m2 :: vs, base, i, out => by
      show flatten2Arr vs base (i + 1)
          (assignAll out (flatten2JS (.obj m2) (stepPath base (.idx i))))
        = assignAll out (opsJS (.obj m2) (stepPath base (.idx i)) ++ opsArr vs base (i + 1))
      rw [flatten2JS_ops (.obj m2) (stepPath base (.idx i)),
        ← assignAll_collapse (opsJS (.obj m2) (stepPath base (.idx i))) out,
        flatten2Arr_ops vs base (i + 1), assignAll_append]
  | .str s :: vs, base, i, out =>
      flatten2Arr_ops vs base (i + 1) (upsert out (stepPath base (.idx i)) s)
  | .num _ :: vs, base, i, out => flatten2Arr_ops vs base (i + 1) out
  | .boolv _ :: vs, base, i, out => flatten2Arr_ops vs base (i + 1) out
  | .nullv :: vs, base, i, out => flatten2Arr_ops vs base (i + 1) out
termination_by x => sizeOf x

theorem flatten2Obj_ops : ∀ (m : List (String × JS)) (base : String)
    (out : List (String × String)),
    flatten2Obj m base out = assignAll out (opsObj m base)
  | [], _, _ => rfl
  | (k, .arr l2) :: fs, base, out => by
      show flatten2Obj fs base
          (assignAll out (flatten2JS (.arr l2) (stepPath base (.key k))))
        = assignAll out (opsJS (.arr l2) (stepPath base (.key k)) ++ opsObj fs base)
      rw [flatten2JS_ops (.arr l2) (stepPath base (.key k)),
        ← assignAll_collapse (opsJS (.arr l2) (stepPath base (.key k))) out,
        flatten2Obj_ops fs base, assignAll_append]
  | (k, .obj m2) :: fs, base, out => by
      show flatten2Obj fs base
          (assignAll out (flatten2JS (.obj m2) (stepPath base (.key k))))
        = assignAll out (opsJS (.obj m2) (stepPath base (.key k)) ++ opsObj fs base)
      rw [flatten2JS_ops (.obj m2) (stepPath base (.key k)),
        ← assignAll_collapse (opsJS (.obj m2) (stepPath base (.key k))) out,
        flatten2Obj_ops fs base, assignAll_append]
  | (k, .str s) :: fs, base, out =>
      flatten2Obj_ops fs base (upsert out (stepPath base (.key k)) s)
  | (_, .num _) :: fs, base, out => flatten2Obj_ops fs base out
  | (_, .boolv _) :: fs, base, out => flatten2Obj_ops fs base out
  | (_, .nullv) :: fs, base, out => flatten2Obj_ops fs base out
termination_by x => sizeOf x

end

theorem flatten_variants_agree (x : JS) (base : String) :
    flattenJS x base [] = flatten2JS x base := by
  rw [flattenJS_ops x base [], flatten2JS_ops x base]

/-! ## translateOne (lines 91-109)

Modelled on the decoded gateway response `data`: `segs` is `data[0]` when
that is an array, the translated text is the concatenation of `s?.[0] ?? ''`
over the array-valued entries of `segs` (JavaScript string coercion via
`coerceStr`, with `null` absorbed to the empty string by `?? ''`), and a
blank concatenation falls back to the original source text.  `idx0` models
`data?.[0]` (array head, object property "0", character of a string). -/

def jsIsArr : JS → Bool
  | .arr _ => true
  | _ => false

def idx0 : JS → Option JS
  | .arr (v :: _) => some v
  | .obj m => alookup m "0"
  | .str s =>
      match s.data with
      | c :: _ => some (.str (String.mk [c]))
      | [] => none
  | _ => none

def intToString (n : Int) : String :=
  if n < 0 then "-" ++ natToString n.natAbs else natToString n.natAbs

mutual

def coerceStr : JS → String
  | .str s => s
  | .num n => intToString n
  | .boolv true => "true"
  | .boolv false => "false"
  | .nullv => "null"
  | .obj _ => "[object Object]"
  | .arr l => joinComma l
termination_by structural x => x

def joinComma : List JS → String
  | [] => ""
  | [.nullv] => ""
  | [v] => coerceStr v
  | .nullv :: rest => "," ++ joinComma rest
  | v :: rest => coerceStr v ++ "," ++ joinComma rest
termination_by structural x => x

end

def segPiece : JS → String
  | .arr (JS.nullv :: _) => ""
  | .arr (v :: _) => coerceStr v
  | _ => ""

def translateOneModel (data : JS) (text : String) : String :=
  match idx0 data with
  | some (JS.arr segs) =>
      let out := String.join ((segs.filter jsIsArr).map segPiece)
      if trimJS out = "" then text else out
  | _ => text

/-! ## withRetries (lines 76-89)

The wrapped call is modelled by its outcome per attempt index; an error
carries the optional HTTP status (`e?.status`, absent or `0` both falsy) and
the message string.  `wrGo left attempt` runs from `attempt` with `left`
further attempts allowed (`left = retries - attempt` in the source loop),
recording the result, the number of attempts made, and the backoff delays
slept between attempts. -/

structure Err where
  status : Option Nat
  message : String
deriving Repr, DecidableEq

def lowerStr (s : String) : List Char := s.data.map Char.toLower

def containsCI (msg pat : String) : Bool :=
  (lowerStr msg).tails.any (fun t => (lowerStr pat).isPrefixOf t)

def msgRetryable (msg : String) : Bool :=
  containsCI msg "ECONNRESET" || containsCI msg "ETIMEDOUT" ||
  containsCI msg "network" || containsCI msg "fetch"

def retryableErr (e : Err) : Bool :=
  match e.status with
  | some s => if s ≠ 0 then [429, 500, 502, 503, 504].contains s
              else msgRetryable e.message
  | none => msgRetryable e.message

structure RetryTrace where
  result : Except Err String
  attempts : Nat
  delays : List Nat
deriving Repr

def wrGo (outcomes : Nat → Except Err String) (baseDelay : Nat) :
    Nat → Nat → RetryTrace
  | left, attempt =>
      match outcomes attempt with
      | .ok v => ⟨.ok v, 1, []⟩
      | .error e =>
          if retryableErr e then
            match left with
            | 0 => ⟨.error e, 1, []⟩
            | left2 + 1 =>
                let r := wrGo outcomes baseDelay left2 (attempt + 1)
                ⟨r.result, r.attempts + 1, baseDelay * 2 ^ attempt :: r.delays⟩
          else ⟨.error e, 1, []⟩

def withRetriesRun (outcomes : Nat → Except Err String)
    (retries baseDelay : Nat) : RetryTrace :=
  wrGo outcomes baseDelay retries 0

theorem wrGo_ok (outcomes : Nat → Except Err String) (baseDelay left attempt : Nat)
    (v : String) (h : outcomes attempt = .ok v) :
    wrGo outcomes baseDelay left attempt = ⟨.ok v, 1, []⟩ := by
  unfold wrGo
  rw [h]

theorem wrGo_fatal (outcomes : Nat → Except Err String) (baseDelay left attempt : Nat)
    (e : Err) (h : outcomes attempt = .error e) (hr : retryableErr e = false) :
    wrGo outcomes baseDelay left attempt = ⟨.error e, 1, []⟩ := by
  unfold wrGo
  rw [h]
  simp [hr]

theorem wrGo_exhaust (outcomes : Nat → Except Err String) (baseDelay attempt : Nat)
    (e : Err) (h : outcomes attempt = .error e) (hr : retryableErr e = true) :
    wrGo outcomes baseDelay 0 attempt = ⟨.error e, 1, []⟩ := by
  unfold wrGo
  rw [h]
  simp [hr]

theorem wrGo_retry (outcomes : Nat → Except Err String)
    (baseDelay left2 attempt : Nat) (e : Err)
    (h : outcomes attempt = .error e) (hr : retryableErr e = true) :
    wrGo outcomes baseDelay (left2 + 1) attempt
      = ⟨(wrGo outcomes baseDelay left2 (attempt + 1)).result,
         (wrGo outcomes baseDelay left2 (attempt + 1)).attempts + 1,
         baseDelay * 2 ^ attempt :: (wrGo outcomes baseDelay left2 (attempt + 1)).delays⟩ := by
  conv_lhs => rw [wrGo]
  rw [h]
  simp [hr]

theorem wrGo_spec_base (outcomes : Nat → Except Err String)
    (baseDelay left attempt : Nat) (x : Except Err String)
    (hterm : wrGo outcomes baseDelay left attempt = ⟨x, 1, []⟩)
    (hx : outcomes attempt = x) :
    (wrGo outcomes baseDelay left attempt).attempts ≤ left + 1 ∧
    1 ≤ (wrGo outcomes baseDelay left attempt).attempts ∧
    (wrGo outcomes baseDelay left attempt).delays
      = (List.range ((wrGo outcomes baseDelay left attempt).attempts - 1)).map
          (fun j => baseDelay * 2 ^ (attempt + j)) ∧
    (∀ j, j + 1 < (wrGo outcomes baseDelay left attempt).attempts →
      ∃ e, outcomes (attempt + j) = .error e ∧ retryableErr e = true) ∧
    (wrGo outcomes baseDelay left attempt).result
      = outcomes (attempt + ((wrGo outcomes baseDelay left attempt).attempts - 1)) := by
  rw [hterm]
  refine ⟨?_, ?_, ?_, ?_, ?_⟩
  · show 1 ≤ left + 1
    omega
  · show 1 ≤ 1
    omega
  · show ([] : List Nat)
      = (List.range (1 - 1)).map (fun j => baseDelay * 2 ^ (attempt + j))
    simp
  · intro j hj
    have h2 : j + 1 < 1 := hj
    omega
  · show x = outcomes (attempt + (1 - 1))
    rw [show attempt + (1 - 1) = attempt from rfl, hx]

theorem wrGo_spec (outcomes : Nat → Except Err String) (baseDelay : Nat) :
    ∀ (left attempt : Nat),
    (wrGo outcomes baseDelay left attempt).attempts ≤ left + 1 ∧
    1 ≤ (wrGo outcomes baseDelay left attempt).attempts ∧
    (wrGo outcomes baseDelay left attempt).delays
      = (List.range ((wrGo outcomes baseDelay left attempt).attempts - 1)).map
          (fun j => baseDelay * 2 ^ (attempt + j)) ∧
    (∀ j, j + 1 < (wrGo outcomes baseDelay left attempt).attempts →
      ∃ e, outcomes (attempt + j) = .error e ∧ retryableErr e = true) ∧
    (wrGo outcomes baseDelay left attempt).result
      = outcomes (attempt + ((wrGo outcomes baseDelay left attempt).attempts - 1)) := by
  intro left
  induction left with
  | zero =>
      intro attempt
      cases h : outcomes attempt with
      | ok v =>
          exact wrGo_spec_base outcomes baseDelay 0 attempt _
            (wrGo_ok outcomes baseDelay 0 attempt v h) h
      | error e =>
          by_cases hr : retryableErr e = true
          · exact wrGo_spec_base outcomes baseDelay 0 attempt _
              (wrGo_exhaust outcomes baseDelay attempt e h hr) h
          · exact wrGo_spec_base outcomes baseDelay 0 attempt _
              (wrGo_fatal outcomes baseDelay 0 attempt e h (by simpa using hr)) h
  | succ left2 ih =>
      intro attempt
      cases h : outcomes attempt with
      | ok v =>
          exact wrGo_spec_base outcomes baseDelay (left2 + 1) attempt _
            (wrGo_ok outcomes baseDelay (left2 + 1) attempt v h) h
      | error e =>
          by_cases hr : retryableErr e = true
          · obtain ⟨ih1, ih2, ih3, ih4, ih5⟩ := ih (attempt + 1)
            rw [wrGo_retry outcomes baseDelay left2 attempt e h hr]
            obtain ⟨n, hn⟩ : ∃ n,
                (wrGo outcomes baseDelay left2 (attempt + 1)).attempts = n + 1 :=
              ⟨(wrGo outcomes baseDelay left2 (attempt + 1)).attempts - 1, by omega⟩
            refine ⟨?_, ?_, ?_, ?_, ?_⟩
            · show (wrGo outcomes baseDelay left2 (attempt + 1)).attempts + 1
                ≤ left2 + 1 + 1
              omega
            · show 1 ≤ (wrGo outcomes baseDelay left2 (attempt + 1)).attempts + 1
              omega
            · show baseDelay * 2 ^ attempt
                  :: (wrGo outcomes baseDelay left2 (attempt + 1)).delays
                = (List.range
                    ((wrGo outcomes baseDelay left2 (attempt + 1)).attempts + 1 - 1)).map
                    (fun j => baseDelay * 2 ^ (attempt + j))
              rw [ih3, hn]
              show baseDelay * 2 ^ attempt
                  :: (List.range (n + 1 - 1)).map
                      (fun j => baseDelay * 2 ^ (attempt + 1 + j))
                = (List.range (n + 1 + 1 - 1)).map
                    (fun j => baseDelay * 2 ^ (attempt + j))
              rw [show n + 1 - 1 = n from rfl, show n + 1 + 1 - 1 = n + 1 from rfl,
                List.range_succ_eq_map, List.map_cons, List.map_map]
              refine congrArg₂ _ (by simp) ?_
              apply List.map_congr_left
              intro j _
              show baseDelay * 2 ^ (attempt + 1 + j)
                = baseDelay * 2 ^ (attempt + (j + 1))
              rw [show attempt + 1 + j = attempt + (j + 1) from by omega]
            · intro j hj
              have hj2 : j + 1
                  < (wrGo outcomes baseDelay left2 (attempt + 1)).attempts + 1 := hj
              cases j with
              | zero => exact ⟨e, by simpa using h, hr⟩
              | succ j2 =>
                  obtain ⟨e2, he2, hre2⟩ := ih4 j2 (by omega)
                  refine ⟨e2, ?_, hre2⟩
                  rw [show attempt + (j2 + 1) = attempt + 1 + j2 from by omega]
                  exact he2
            · show (wrGo outcomes baseDelay left2 (attempt + 1)).result
                = outcomes (attempt
                    + ((wrGo outcomes baseDelay left2 (attempt + 1)).attempts + 1 - 1))
              rw [ih5, hn]
              show outcomes (attempt + 1 + n) = outcomes (attempt + (n + 1 + 1 - 1))
              rw [show attempt + (n + 1 + 1 - 1) = attempt + 1 + n from by omega]
          · exact wrGo_spec_base outcomes baseDelay (left2 + 1) attempt _
              (wrGo_fatal outcomes baseDelay (left2 + 1) attempt e h (by simpa using hr)) h

/-- Blank-translation fallback: whenever the concatenated gateway result is
empty or whitespace-only (or the response shape is unusable), the returned
value is the original source text; and the returned value is never blank
when the source text is not blank. -/
theorem translateOne_spec (data : JS) (text : String) :
    (∀ segs, idx0 data = some (JS.arr segs) →
        trimJS (String.join ((segs.filter jsIsArr).map segPiece)) = "" →
        translateOneModel data text = text) ∧
    (trimJS text ≠ "" → trimJS (translateOneModel data text) ≠ "") := by
  constructor
  · intro segs h0 hb
    unfold translateOneModel
    rw [h0]
    simp [hb]
  · intro ht
    unfold translateOneModel
    cases h0 : idx0 data with
    | none => exact ht
    | some v =>
        cases v with
        | arr segs =>
            by_cases hb : trimJS (String.join ((segs.filter jsIsArr).map segPiece)) = ""
            · simp only [hb, if_pos]
              exact ht
            · simp only [if_neg hb]
              exact hb
        | str s => exact ht
        | num n => exact ht
        | boolv b => exact ht
        | obj m => exact ht
        | nullv => exact ht

/-! ## Error analysis of inflate and silent degradation of splitPath -/

theorem assignSeg_error (cur : JS) (s : Seg) (val : JS) (msg : String)
    (h : assignSeg cur s val = .error msg) : msg = "TypeError" := by
  cases cur with
  | obj m => simp [assignSeg] at h
  | arr l =>
      cases s with
      | idx i => simp [assignSeg] at h
      | key k =>
          simp only [assignSeg] at h
          split at h <;> simp at h
  | str s2 => cases s <;> simp_all [assignSeg]
  | num n => cases s <;> simp_all [assignSeg]
  | boolv b => cases s <;> simp_all [assignSeg]
  | nullv => cases s <;> simp_all [assignSeg]

theorem setPathSeg_error : ∀ (parts : List Seg) (cur val : JS) (msg : String),
    setPathSeg cur parts val = .error msg → msg = "TypeError"
  | [], cur, val, msg, h => assignSeg_error cur (.key "undefined") val msg h
  | [s], cur, val, msg, h => assignSeg_error cur s val msg h
  | s :: s2 :: rest, cur, val, msg, h => by
      rw [show setPathSeg cur (s :: s2 :: rest) val
          = (match setPathSeg
              (match childNonNull cur s with
               | some c => c
               | none => freshFor s2) (s2 :: rest) val with
             | .ok child2 => assignSeg cur s child2
             | .error e => .error e) from rfl] at h
      cases h2 : setPathSeg
          (match childNonNull cur s with
           | some c => c
           | none => freshFor s2) (s2 :: rest) val with
      | ok child2 =>
          rw [h2] at h
          exact assignSeg_error cur s child2 msg h
      | error e =>
          rw [h2] at h
          injection h with h3
          rw [← h3]
          exact setPathSeg_error (s2 :: rest) _ val e h2

theorem inflateGo_error : ∀ (m : List (String × String)) (root : JS) (msg : String),
    inflateGo m root = .error msg → msg = "TypeError" := by
  intro m
  induction m with
  | nil => intro root msg h; simp [inflateGo] at h
  | cons kv rest ih =>
      intro root msg h
      obtain ⟨k, v⟩ := kv
      rw [show inflateGo ((k, v) :: rest) root
          = (match setPathSeg root (splitPath k) (.str v) with
             | .ok r2 => inflateGo rest r2
             | .error e => .error e) from rfl] at h
      cases h2 : setPathSeg root (splitPath k) (.str v) with
      | ok r2 =>
          rw [h2] at h
          exact ih r2 msg h
      | error e =>
          rw [h2] at h
          injection h with h3
          rw [← h3]
          exact setPathSeg_error (splitPath k) root (.str v) e h2

theorem inflateF_error (m : List (String × String)) (msg : String)
    (h : inflateF m = .error msg) : msg = "TypeError" :=
  inflateGo_error m (JS.obj []) msg h

/-- An unterminated bracket after a valid key degrades silently: the digits
are re-scanned as an ordinary key segment and no failure is signalled. -/
theorem splitPath_unterminated (k : String) (i : Nat) (hk : validKey k = true) :
    splitPath (k ++ "[" ++ natToString i) = [Seg.key k, Seg.key (natToString i)] := by
  have hdata : (k ++ "[" ++ natToString i).data = k.data ++ ('[' :: natChars i) := by
    simp [String.data_append, natToString]
  show spGo (k ++ "[" ++ natToString i).data .top = _
  rw [hdata]
  apply spGo_keySeg k hk _ [Seg.key (natToString i)]
  intro buf
  rw [show spGo ('[' :: natChars i) (.keyrun buf)
      = Seg.key (String.mk buf.reverse) :: spGo (natChars i) (.bracket []) from by
    simp [spGo]]
  rw [show natChars i = natChars i ++ ([] : List Char) from by simp,
    spGo_digitRun (natChars i) (natChars_all_digit i) [] []]
  simp [spGo, spFlush, natChars_ne_nil i, natToString]

/-! ## The claims -/

/-- Claim C1 (amended): for canonical object-rooted trees - string leaves
only, nonempty containers, object keys nonempty and free of dots and
brackets - inflate(flatten(t)) = t.  The unrestricted claim fails for keys
containing a dot or a bracket and for sequence-rooted trees (see the
counterexample). -/
theorem claim_C1_roundtrip (t : JS) (hc : canonJS t = true)
    (ho : isObjJS t = true) : inflateF (flattenTop t) = .ok t :=
  inflate_flattenTop t hc ho

theorem claim_C1_roundtrip_witness :
    canonJS (JS.obj [("a", JS.obj [("b", JS.str "x")]),
      ("l", JS.arr [JS.str "y", JS.str "z"])]) = true ∧
    isObjJS (JS.obj [("a", JS.obj [("b", JS.str "x")]),
      ("l", JS.arr [JS.str "y", JS.str "z"])]) = true ∧
    inflateF (flattenTop (JS.obj [("a", JS.obj [("b", JS.str "x")]),
      ("l", JS.arr [JS.str "y", JS.str "z"])]))
      = .ok (JS.obj [("a", JS.obj [("b", JS.str "x")]),
        ("l", JS.arr [JS.str "y", JS.str "z"])]) :=
  ⟨by decide, by decide, claim_C1_roundtrip _ (by decide) (by decide)⟩

/-- A key containing a dot, and a sequence at the root, both break the
unrestricted round trip. -/
theorem claim_C1_counterexample :
    inflateF (flattenTop (JS.obj [("a.b", JS.str "x")]))
      ≠ .ok (JS.obj [("a.b", JS.str "x")]) ∧
    inflateF (flattenTop (JS.arr [JS.str "x"]))
      ≠ .ok (JS.arr [JS.str "x"]) := by decide

/-- Claim C2: a path is reused precisely when the cache entry equals the
cleaned current source text and the previous output holds a non-blank
string there; a reused path copies the previous value verbatim and the
gateway is not called for it; otherwise the path is translated. -/
theorem claim_C2_reuse_iff (strip : Bool) (g : String → String)
    (prevT cache flat : List (String × String)) (p vRaw : String)
    (hnd : (keysOf flat).Nodup) (hv : alookup flat p = some vRaw) :
    (reuseOk cache prevT p (cleanCfg strip vRaw) = true
      ↔ (alookup cache p = some (cleanCfg strip vRaw) ∧
         ∃ s, alookup prevT p = some s ∧ trimJS s ≠ "")) ∧
    (reuseOk cache prevT p (cleanCfg strip vRaw) = true →
      alookup (runLoop strip g prevT flat cache).out p = alookup prevT p ∧
      p ∉ (runLoop strip g prevT flat cache).calls.map Prod.fst) ∧
    (reuseOk cache prevT p (cleanCfg strip vRaw) = false →
      alookup (runLoop strip g prevT flat cache).out p
        = some (g (cleanCfg strip vRaw))) := by
  refine ⟨reuseOk_iff cache prevT p _, ?_, ?_⟩
  · intro hr
    have h := runLoop_reuse strip g prevT flat cache p vRaw hnd hv hr
    exact ⟨h.1, h.2.1⟩
  · intro hr
    exact (runLoop_miss strip g prevT flat cache p vRaw hnd hv hr).1

theorem claim_C2_reuse_iff_witness :
    (keysOf [("a", "Hello")]).Nodup ∧
    alookup [("a", "Hello")] "a" = some "Hello" ∧
    (reuseOk [("a", "Hello")] [("a", "Hej")] "a" (cleanCfg true "Hello") = true
      ↔ (alookup [("a", "Hello")] "a" = some (cleanCfg true "Hello") ∧
         ∃ s, alookup [("a", "Hej")] "a" = some s ∧ trimJS s ≠ "")) :=
  ⟨by decide, rfl,
   (claim_C2_reuse_iff true (fun s => s) [("a", "Hej")] [("a", "Hello")]
     [("a", "Hello")] "a" "Hello" (by decide) rfl).1⟩

/-- Claim C3: a path whose cache entry is absent or differs from the cleaned
current source text is translated: the gateway is called exactly once for
it, and afterwards its cache entry holds the cleaned current source text. -/
theorem claim_C3_cache_miss (strip : Bool) (g : String → String)
    (prevT cache flat : List (String × String)) (p vRaw : String)
    (hnd : (keysOf flat).Nodup) (hv : alookup flat p = some vRaw)
    (hmiss : alookup cache p ≠ some (cleanCfg strip vRaw)) :
    (runLoop strip g prevT flat cache).calls.filter (fun q => q.1 == p)
      = [(p, cleanCfg strip vRaw)] ∧
    alookup (runLoop strip g prevT flat cache).cache p
      = some (cleanCfg strip vRaw) := by
  have hr : reuseOk cache prevT p (cleanCfg strip vRaw) = false := by
    cases h2 : reuseOk cache prevT p (cleanCfg strip vRaw) with
    | false => rfl
    | true =>
        obtain ⟨hc, _⟩ := (reuseOk_iff cache prevT p _).1 h2
        exact absurd hc hmiss
  have h := runLoop_miss strip g prevT flat cache p vRaw hnd hv hr
  exact ⟨h.2.1, h.2.2⟩

theorem claim_C3_cache_miss_witness :
    (keysOf [("a", "Hi")]).Nodup ∧
    alookup [("a", "Hi")] "a" = some "Hi" ∧
    alookup ([] : List (String × String)) "a" ≠ some (cleanCfg true "Hi") ∧
    ((runLoop true (fun _ => "Hej") [] [("a", "Hi")] []).calls.filter
        (fun q => q.1 == "a") = [("a", cleanCfg true "Hi")] ∧
      alookup (runLoop true (fun _ => "Hej") [] [("a", "Hi")] []).cache "a"
        = some (cleanCfg true "Hi")) :=
  ⟨by decide, rfl, by decide,
   claim_C3_cache_miss true (fun _ => "Hej") [] [] [("a", "Hi")] "a" "Hi"
     (by decide) rfl (by decide)⟩

/-- Claim C4: the path codec round-trips: for every sequence of valid
segments (nonempty dot- and bracket-free string keys, numeric indices),
splitPath applied to the encoded path string returns exactly the original
segments, keys as keys and indices as numbers. -/
theorem claim_C4_codec_roundtrip (s : List Seg) (hv : validSegs s = true) :
    splitPath (encodePath s) = s :=
  splitPath_encodePath s hv

theorem claim_C4_codec_roundtrip_witness :
    validSegs [Seg.key "a", Seg.key "b", Seg.idx 10, Seg.key "c"] = true ∧
    splitPath (encodePath [Seg.key "a", Seg.key "b", Seg.idx 10, Seg.key "c"])
      = [Seg.key "a", Seg.key "b", Seg.idx 10, Seg.key "c"] :=
  ⟨by decide, claim_C4_codec_roundtrip _ (by decide)⟩

/-- Claim C5 (amended): for a canonical object-rooted source tree and a
gateway that never returns a blank string, a second run started from the
first run's cache and from the re-flattened tree written by the first run
makes no gateway calls, leaves the cache unchanged, and reproduces the
first run's output mapping exactly.  The unrestricted claim fails for
source keys containing a dot (see the counterexample). -/
theorem claim_C5_second_run (strip : Bool) (g : String → String)
    (prevT0 cache0 : List (String × String)) (t : JS)
    (hc : canonJS t = true) (ho : isObjJS t = true)
    (hg : ∀ s, trimJS (g s) ≠ "") :
    ∃ t2 : JS,
      inflateF (runLoop strip g prevT0 (flattenTop t) cache0).out = .ok t2 ∧
      runLoop strip g (flattenTop t2) (flattenTop t)
          (runLoop strip g prevT0 (flattenTop t) cache0).cache
        = ⟨(runLoop strip g prevT0 (flattenTop t) cache0).out,
           (runLoop strip g prevT0 (flattenTop t) cache0).cache, []⟩ :=
  second_run_idempotent strip g prevT0 cache0 t hc ho hg

theorem claim_C5_second_run_witness :
    canonJS (JS.obj [("a", JS.str "Hello")]) = true ∧
    isObjJS (JS.obj [("a", JS.str "Hello")]) = true ∧
    (∀ s : String, trimJS ((fun _ => "Hej") s) ≠ "") ∧
    (∃ t2 : JS,
      inflateF (runLoop true (fun _ => "Hej") [] (flattenTop (JS.obj [("a", JS.str "Hello")])) []).out = .ok t2 ∧
      runLoop true (fun _ => "Hej") (flattenTop t2) (flattenTop (JS.obj [("a", JS.str "Hello")]))
          (runLoop true (fun _ => "Hej") [] (flattenTop (JS.obj [("a", JS.str "Hello")])) []).cache
        = ⟨(runLoop true (fun _ => "Hej") [] (flattenTop (JS.obj [("a", JS.str "Hello")])) []).out,
           (runLoop true (fun _ => "Hej") [] (flattenTop (JS.obj [("a", JS.str "Hello")])) []).cache, []⟩) :=
  ⟨by decide, by decide,
   fun _ => by
     show trimJS "Hej" ≠ ""
     decide,
   claim_C5_second_run true (fun _ => "Hej") [] [] (JS.obj [("a", JS.str "Hello")])
     (by decide) (by decide)
     (fun _ => by
       show trimJS "Hej" ≠ ""
       decide)⟩

/-- On a source with a dotted key the target file written by the first run
loses the path, so the second run calls the gateway again: the unrestricted
idempotence claim is false. -/
theorem claim_C5_counterexample :
    inflateF (runLoop true (fun s => "T" ++ s) []
        (flattenTop (JS.obj [("a.b", JS.str "x"), ("a", JS.str "y")])) []).out
      = .ok (JS.obj [("a", JS.str "Ty")]) ∧
    (runLoop true (fun s => "T" ++ s)
        (flattenTop (JS.obj [("a", JS.str "Ty")]))
        (flattenTop (JS.obj [("a.b", JS.str "x"), ("a", JS.str "y")]))
        (runLoop true (fun s => "T" ++ s) []
          (flattenTop (JS.obj [("a.b", JS.str "x"), ("a", JS.str "y")])) []).cache).calls
      ≠ [] := by decide

/-- Claim C6 (amended): a blank or unusable gateway result makes the
returned value fall back to the original source text, with no error; and
the returned value is never blank when the source text is not blank.  The
unrestricted "never blank" claim fails when the source text itself is
blank (see the counterexample). -/
theorem claim_C6_blank_fallback (data : JS) (text : String) :
    (∀ segs, idx0 data = some (JS.arr segs) →
        trimJS (String.join ((segs.filter jsIsArr).map segPiece)) = "" →
        translateOneModel data text = text) ∧
    (trimJS text ≠ "" → trimJS (translateOneModel data text) ≠ "") :=
  translateOne_spec data text

theorem claim_C6_blank_fallback_witness :
    translateOneModel (JS.arr [JS.arr [JS.arr [JS.str " "]]]) "Hello" = "Hello" ∧
    trimJS (translateOneModel JS.nullv "Hi") ≠ "" :=
  ⟨(claim_C6_blank_fallback (JS.arr [JS.arr [JS.arr [JS.str " "]]]) "Hello").1
      [JS.arr [JS.str " "]] rfl (by decide),
   (claim_C6_blank_fallback JS.nullv "Hi").2 (by decide)⟩

/-- With a blank source text and a blank gateway result the recorded value
is itself blank: the "never an empty or blank string" reading fails. -/
theorem claim_C6_counterexample :
    translateOneModel (JS.arr [JS.arr [JS.arr [JS.str ""]]]) " " = " " ∧
    trimJS " " = "" := by decide

/-- Claim C7: withRetries makes at most retries+1 attempts, sleeps the
exponentially doubling delays baseDelay*2^j between attempts, re-attempts
only after failures classified transient (status 429/500/502/503/504, or a
connection-reset / timeout / network / fetch message), returns the outcome
of its final attempt, and rethrows a non-transient first failure
immediately with one attempt and no delays. -/
theorem claim_C7_retry_policy (outcomes : Nat → Except Err String)
    (retries baseDelay : Nat) :
    (withRetriesRun outcomes retries baseDelay).attempts ≤ retries + 1 ∧
    (withRetriesRun outcomes retries baseDelay).delays
      = (List.range ((withRetriesRun outcomes retries baseDelay).attempts - 1)).map
          (fun j => baseDelay * 2 ^ j) ∧
    (∀ j, j + 1 < (withRetriesRun outcomes retries baseDelay).attempts →
      ∃ e, outcomes j = .error e ∧ retryableErr e = true) ∧
    (withRetriesRun outcomes retries baseDelay).result
      = outcomes ((withRetriesRun outcomes retries baseDelay).attempts - 1) ∧
    (∀ e, outcomes 0 = .error e → retryableErr e = false →
      withRetriesRun outcomes retries baseDelay = ⟨.error e, 1, []⟩) := by
  obtain ⟨h1, _, h3, h4, h5⟩ := wrGo_spec outcomes baseDelay retries 0
  unfold withRetriesRun
  refine ⟨h1, ?_, ?_, ?_, ?_⟩
  · rw [h3]
    apply List.map_congr_left
    intro j _
    rw [Nat.zero_add]
  · intro j hj
    have h := h4 j hj
    rwa [Nat.zero_add] at h
  · rw [h5, Nat.zero_add]
  · intro e he hre
    exact wrGo_fatal outcomes baseDelay retries 0 e he hre

theorem claim_C7_retry_policy_witness :
    (∃ e, (fun i => if i = 0
        then (.error ⟨some 429, "rate limited"⟩ : Except Err String)
        else .ok "done") 0 = .error e ∧ retryableErr e = true) ∧
    withRetriesRun (fun _ => (.error ⟨some 400, "bad request"⟩ : Except Err String))
        3 400
      = ⟨.error ⟨some 400, "bad request"⟩, 1, []⟩ :=
  ⟨(claim_C7_retry_policy (fun i => if i = 0
      then (.error ⟨some 429, "rate limited"⟩ : Except Err String)
      else .ok "done") 3 400).2.2.1 0 (by decide),
   (claim_C7_retry_policy (fun _ => (.error ⟨some 400, "bad request"⟩ : Except Err String))
      3 400).2.2.2.2 ⟨some 400, "bad request"⟩ rfl (by decide)⟩

/-- Claim C8 (amended): a container-kind conflict is resolved silently, not
raised: a numeric segment written into an existing plain object is coerced
to its decimal string key, and the only error inflate can ever signal is
the TypeError from assigning through a primitive - there is no
PathConflictError.  The original claim fails (see the counterexample). -/
theorem claim_C8_conflict (m : List (String × JS)) (i : Nat) (v : JS) :
    assignSeg (JS.obj m) (.idx i) v = .ok (JS.obj (upsert m (natToString i) v)) ∧
    (∀ (flat : List (String × String)) (msg : String),
      inflateF flat = .error msg → msg = "TypeError") :=
  ⟨rfl, fun flat msg h => inflateF_error flat msg h⟩

theorem claim_C8_conflict_witness :
    inflateF [("a", "x"), ("a.b", "y")] = .error "TypeError" ∧
    "TypeError" = "TypeError" :=
  ⟨by decide,
   (claim_C8_conflict [] 0 JS.nullv).2 [("a", "x"), ("a.b", "y")] "TypeError"
     (by decide)⟩

/-- The paths a.b and a[0] imply different container kinds under a, yet
inflate succeeds and merges both into one object, with the index written
as the string key "0". -/
theorem claim_C8_counterexample :
    inflateF [("a.b", "x"), ("a[0]", "y")]
      = .ok (JS.obj [("a", JS.obj [("b", JS.str "x"), ("0", JS.str "y")])]) := by
  decide

/-- Claim C9 (amended): splitPath never fails: an unterminated bracket
after a valid key degrades silently, re-scanning the digits as an ordinary
key segment.  The original claim (a MalformedPathError) fails: see the
counterexample, including the non-numeric bracket case. -/
theorem claim_C9_malformed (k : String) (i : Nat) (hk : validKey k = true) :
    splitPath (k ++ "[" ++ natToString i) = [Seg.key k, Seg.key (natToString i)] :=
  splitPath_unterminated k i hk

theorem claim_C9_malformed_witness :
    validKey "a" = true ∧
    splitPath ("a" ++ "[" ++ natToString 1) = [Seg.key "a", Seg.key (natToString 1)] :=
  ⟨by decide, claim_C9_malformed "a" 1 (by decide)⟩

/-- Unterminated and non-numeric brackets both produce ordinary segment
lists instead of any error. -/
theorem claim_C9_counterexample :
    splitPath "a[1" = [Seg.key "a", Seg.key "1"] ∧
    splitPath "a[x]" = [Seg.key "a", Seg.key "x]"] := by decide

/-- Claim C10: the two flatten implementations are extensionally equal: on
every tree and every base prefix the first variant (threaded accumulator)
and the second variant (per-call object merged with Object.assign) return
exactly the same flat mapping, keys, values and order alike. -/
theorem claim_C10_variants_agree (x : JS) (base : String) :
    flattenJS x base [] = flatten2JS x base :=
  flatten_variants_agree x base
